import Mathlib

/-!
Verification of the entity-resolution / deduplication core of the
latin publications repository: the blocking index, multi-signal similarity
scorer, union-find cluster builder, cross-catalog confidence tiering, and
the arbitration-oracle response parsing.

Strings are modelled as `List Char`.  Python's Unicode-aware character
classes (`\w`, `str.lower`, NFKD, unidecode) are modelled on the character
repertoire the code manipulates: ASCII plus the ligature characters
'æ'/'œ'/'Æ'/'Œ' that the sources special-case.  Fractional scores are
modelled as rationals; the tier logic and score arithmetic only compare and
combine values, so `ℚ` is faithful to the Python floats on these inputs.
-/

namespace LatinPub

attribute [local semireducible] Rat.add Rat.ofScientific Rat.mul Rat.inv Rat.sub

/-- Python's whitespace class `\s` restricted to the characters occurring in
the repository's data: space, tab, newline, carriage return. -/
def pySpace (c : Char) : Bool :=
  c == ' ' || c == '\t' || c == '\n' || c == '\r'

/-- Python's word class `\w` (letters, digits, underscore) on the modelled
repertoire: ASCII alphanumerics, underscore, and the ligature letters. -/
def pyWordChar (c : Char) : Bool :=
  c.isAlphanum || c == '_' || c == 'æ' || c == 'œ' || c == 'Æ' || c == 'Œ'

/-- The case-mapping table of Python's `str.lower` on the modelled
repertoire: the ASCII letters plus the ligature uppercase forms. -/
def lowerTable : List (Char × Char) :=
  [('A', 'a'), ('B', 'b'), ('C', 'c'), ('D', 'd'), ('E', 'e'), ('F', 'f'),
   ('G', 'g'), ('H', 'h'), ('I', 'i'), ('J', 'j'), ('K', 'k'), ('L', 'l'),
   ('M', 'm'), ('N', 'n'), ('O', 'o'), ('P', 'p'), ('Q', 'q'), ('R', 'r'),
   ('S', 's'), ('T', 't'), ('U', 'u'), ('V', 'v'), ('W', 'w'), ('X', 'x'),
   ('Y', 'y'), ('Z', 'z'), ('Æ', 'æ'), ('Œ', 'œ')]

/-- Python's `str.lower` on the modelled repertoire, character by
character. -/
def pyLowerChar (c : Char) : Char :=
  ((lowerTable.find? (fun p => p.1 == c)).map (·.2)).getD c

/-- `str.split()` with no separator: split on runs of whitespace, dropping
empty tokens.  `acc` holds the characters of the token being read, reversed. -/
def pyWordsAux : List Char → List Char → List (List Char)
  | acc, [] => if acc.isEmpty then [] else [acc.reverse]
  | acc, c :: cs =>
    if pySpace c then
      if acc.isEmpty then pyWordsAux [] cs else acc.reverse :: pyWordsAux [] cs
    else
      pyWordsAux (c :: acc) cs

/-- `str.split()` of a string given as a character list. -/
def pyWords (l : List Char) : List (List Char) :=
  pyWordsAux [] l

/-- `' '.join(tokens)`. -/
def joinWords : List (List Char) → List Char
  | [] => []
  | [t] => t
  | t :: ts => t ++ ' ' :: joinWords ts

/-- `re.sub(r'[^\w\s]', ' ', s)`: every character that is neither a word
character nor whitespace becomes a space. -/
def pySubPunct (l : List Char) : List Char :=
  l.map (fun c => if pyWordChar c || pySpace c then c else ' ')

/-- `s.replace('æ', 'ae').replace('œ', 'oe')`.  Both patterns are single
characters, so the two sequential replacements are one character-wise
expansion. -/
def replaceLigatures (l : List Char) : List Char :=
  l.flatMap (fun c =>
    if c == 'æ' then ['a', 'e'] else if c == 'œ' then ['o', 'e'] else [c])

/-- `unicodedata.normalize('NFKD', s)` modelled on the repertoire above: the
ASCII characters and the ligatures 'æ'/'œ' have no NFKD decomposition, so on
this repertoire NFKD is the identity. -/
def pyNFKD (l : List Char) : List Char :=
  l

/-- `unidecode` (third-party transliteration) modelled on the repertoire the
deduplicator handles: ASCII characters map to themselves and the ligatures
are transliterated to their two-letter forms. -/
def ddUnidecode (l : List Char) : List Char :=
  l.flatMap (fun c =>
    if c == 'æ' then ['a', 'e'] else if c == 'œ' then ['o', 'e']
    else if c == 'Æ' then ['A', 'E'] else if c == 'Œ' then ['O', 'E'] else [c])

/-- `re.sub(r'\s+', ' ', s)`: collapse every whitespace run to one space.
The flag records whether the previous character was whitespace. -/
def collapseWsAux : Bool → List Char → List Char
  | _, [] => []
  | prevSpace, c :: cs =>
    if pySpace c then
      if prevSpace then collapseWsAux true cs else ' ' :: collapseWsAux true cs
    else
      c :: collapseWsAux false cs

/-- `re.sub(r'\s+', ' ', s)` on a character list. -/
def collapseWs (l : List Char) : List Char :=
  collapseWsAux false l

/-- `str.strip()`: drop leading and trailing whitespace. -/
def pyStrip (l : List Char) : List Char :=
  ((l.dropWhile pySpace).reverse.dropWhile pySpace).reverse

/-- `normalize_title` from `scripts/bph_ia_fuzzy_match.py`: lowercase, replace
punctuation by spaces, canonicalize whitespace, then expand ligatures. -/
def normalize_title (l : List Char) : List Char :=
  replaceLigatures (joinWords (pyWords (pySubPunct (l.map pyLowerChar))))

/-- `normalize_text` from `scripts/matching/bph_ia_agent_match.py`: lowercase,
NFKD-decompose, expand ligatures, replace punctuation by spaces, canonicalize
whitespace. -/
def agent_normalize_text (l : List Char) : List Char :=
  joinWords (pyWords (pySubPunct (replaceLigatures (pyNFKD (l.map pyLowerChar)))))

/-- `RecordDeduplicator.normalize_text` from `scripts/utils/deduplicator.py`
on a string argument: lowercase, transliterate with unidecode, replace
punctuation by spaces, collapse whitespace runs, strip.  (The `pd.isna`
branch maps a missing value to the empty string before this runs.) -/
def dd_normalize_text (l : List Char) : List Char :=
  pyStrip (collapseWs (pySubPunct (ddUnidecode (l.map pyLowerChar))))

/-- Confidence tiering from `BibliographicMatcher.find_candidates` in
`scripts/matching/bph_ia_agent_match.py` (lines 298-315): the if/elif chain
assigning 'high' / 'medium' / 'needs_llm' / 'low' from the embedding score
and the author/year corroboration booleans. -/
def assignConfidence (score : ℚ) (authorMatch yearMatch useLlm : Bool) : String :=
  if 0.85 ≤ score ∧ (authorMatch = true ∨ yearMatch = true) then "high"
  else if 0.75 ≤ score ∧ authorMatch = true ∧ yearMatch = true then "high"
  else if 0.85 ≤ score then "medium"
  else if 0.75 ≤ score ∧ (authorMatch = true ∨ yearMatch = true) then "medium"
  else if 0.60 ≤ score then (if useLlm then "needs_llm" else "low")
  else "low"

/-! ### Intra-catalog scorer, `latin_pub_db/scripts/dedupe.py` -/

/-- A publication row as selected by `deduplicate` in
`latin_pub_db/scripts/dedupe.py`: id, normalized title, normalized creator,
year.  `creator_normalized` and `year` may be NULL; the SQL filter keeps only
rows with a title and a year, but `similarity_score` itself re-checks
presence, so both are optional here. -/
structure PubRecord where
  id : Nat
  title_normalized : List Char
  creator_normalized : Option (List Char)
  year : Option Int
deriving DecidableEq

/-- Python truthiness of `record.get(field)` for an optional string:
false on NULL and on the empty string. -/
def truthyStr : Option (List Char) → Bool
  | none => false
  | some s => !s.isEmpty

/-- Python truthiness of `record.get('year')`: false on NULL and on 0. -/
def truthyYear : Option Int → Bool
  | none => false
  | some y => y != 0

/-- The word set of a normalized string, as used by the fallback similarity
in `similarity_score` (`set(s.split())`). -/
def tokenSet (l : List Char) : Finset (List Char) :=
  (pyWords l).toFinset

/-- The basic fallback similarity of `similarity_score` when rapidfuzz is not
installed: Jaccard overlap of the word sets, scaled to 0-100 when both sets
are non-empty, else 0. -/
def jaccardSim (a b : List Char) : ℚ :=
  if (tokenSet a).Nonempty ∧ (tokenSet b).Nonempty then
    ((tokenSet a ∩ tokenSet b).card : ℚ) / ((tokenSet a ∪ tokenSet b).card : ℚ) * 100
  else 0

/-- `YEAR_TOLERANCE` from `dedupe.py`. -/
def YEAR_TOLERANCE : Int := 2

/-- `SIMILARITY_THRESHOLD` from `dedupe.py`. -/
def SIMILARITY_THRESHOLD : ℚ := 85

/-- `similarity_score` from `latin_pub_db/scripts/dedupe.py` (lines 41-97).
`tsr` is the token similarity used for titles and creators: with rapidfuzz
installed it is `fuzz.token_set_ratio` (a third-party 0-100 ratio), otherwise
the in-repo fallback `jaccardSim`; the function is faithful for either branch.
A signal contributes only when the field is truthy on both records, its weight
is accumulated into `weights_total`, and the final result is
`score / weights_total * 100` exactly as the source computes it. -/
def similarity_score (tsr : List Char → List Char → ℚ) (r1 r2 : PubRecord) : ℚ :=
  let titleP : Bool := !r1.title_normalized.isEmpty && !r2.title_normalized.isEmpty
  let creatorP : Bool := truthyStr r1.creator_normalized && truthyStr r2.creator_normalized
  let yearP : Bool := truthyYear r1.year && truthyYear r2.year
  let yearDiff : Int := |r1.year.getD 0 - r2.year.getD 0|
  let yearSim : ℚ := if yearDiff ≤ YEAR_TOLERANCE then 100 - (yearDiff : ℚ) * 20 else 0
  let score : ℚ :=
    (if titleP then tsr r1.title_normalized r2.title_normalized * 0.6 else 0) +
    (if creatorP then tsr (r1.creator_normalized.getD []) (r2.creator_normalized.getD []) * 0.3 else 0) +
    (if yearP then yearSim * 0.1 else 0)
  let weights_total : ℚ :=
    (if titleP then (0.6 : ℚ) else 0) + (if creatorP then (0.3 : ℚ) else 0) +
    (if yearP then (0.1 : ℚ) else 0)
  if 0 < weights_total then score / weights_total * 100 else 0

/-- Stated from the spec's words, for comparison with `similarity_score`:
the weighted average of the present signals only, re-normalized by the
weights of the fields present on both records (title 0.6, creator 0.3,
year 0.1), and 0 when no signal is present. -/
def spec_presentWeightedAverage (tsr : List Char → List Char → ℚ) (r1 r2 : PubRecord) : ℚ :=
  let titleP : Bool := !r1.title_normalized.isEmpty && !r2.title_normalized.isEmpty
  let creatorP : Bool := truthyStr r1.creator_normalized && truthyStr r2.creator_normalized
  let yearP : Bool := truthyYear r1.year && truthyYear r2.year
  let yearDiff : Int := |r1.year.getD 0 - r2.year.getD 0|
  let yearSim : ℚ := if yearDiff ≤ YEAR_TOLERANCE then 100 - (yearDiff : ℚ) * 20 else 0
  let score : ℚ :=
    (if titleP then tsr r1.title_normalized r2.title_normalized * 0.6 else 0) +
    (if creatorP then tsr (r1.creator_normalized.getD []) (r2.creator_normalized.getD []) * 0.3 else 0) +
    (if yearP then yearSim * 0.1 else 0)
  let weights_total : ℚ :=
    (if titleP then (0.6 : ℚ) else 0) + (if creatorP then (0.3 : ℚ) else 0) +
    (if yearP then (0.1 : ℚ) else 0)
  if 0 < weights_total then score / weights_total else 0

/-! ### Cross-catalogue signals, `scripts/utils/deduplicator.py`

The `RecordDeduplicator` similarity signals.  `fr` stands for the third-party
`fuzz.ratio` and `tsr` for `fuzz.token_set_ratio`, both 0-100 ratios; every
other step is translated from the source.  Record fields are `Option`s: `none`
models a missing value (`pd.isna`). -/

/-- A bibliographic record as consumed by `RecordDeduplicator`: raw title,
author, publication year and place, each possibly missing. -/
structure DDRecord where
  title : Option (List Char)
  author : Option (List Char)
  publication_year : Option Int
  publication_place : Option (List Char)
deriving DecidableEq

/-- The stop-word set of `RecordDeduplicator.extract_keywords`. -/
def dd_stop_words : List (List Char) :=
  ["de", "der", "die", "das", "des", "dem", "den", "ein", "eine", "einer",
   "einem", "einen", "et", "ad", "in", "a", "ab", "ex", "per", "pro",
   "cum", "sine", "sub", "super", "inter", "contra", "the", "a", "an"].map String.data

/-- `RecordDeduplicator.extract_keywords`: the significant words of a title —
normalized words longer than 2 characters that are not stop words. -/
def dd_extract_keywords (title : List Char) : Finset (List Char) :=
  ((pyWords (dd_normalize_text title)).filter
    (fun w => 2 < w.length && !dd_stop_words.contains w)).toFinset

/-- `RecordDeduplicator.calculate_title_similarity` (lines 104-144): 0 if a
title is missing, else a 0.3/0.4/0.3 blend of direct ratio, token-set ratio
and keyword Jaccard overlap, each on the 0-1 scale. -/
def dd_calculate_title_similarity (fr tsr : List Char → List Char → ℚ) :
    Option (List Char) → Option (List Char) → ℚ
  | some t1, some t2 =>
    let norm1 := dd_normalize_text t1
    let norm2 := dd_normalize_text t2
    let direct := fr norm1 norm2 / 100
    let token := tsr norm1 norm2 / 100
    let k1 := dd_extract_keywords t1
    let k2 := dd_extract_keywords t2
    let keyword : ℚ :=
      if k1 = ∅ ∧ k2 = ∅ then 1
      else if k1 = ∅ ∨ k2 = ∅ then 0
      else if k1 ∪ k2 ≠ ∅ then ((k1 ∩ k2).card : ℚ) / ((k1 ∪ k2).card : ℚ) else 0
    direct * 0.3 + token * 0.4 + keyword * 0.3
  | _, _ => 0

/-- `RecordDeduplicator.calculate_author_similarity` (lines 146-185): 0 if an
author is missing; 1 on an exact non-empty surname (last word) match; else the
direct ratio plus an initials bonus, capped at 1.  (When both normalized names
are empty Python raises ZeroDivisionError in the bonus; with Lean's 0/0 = 0
the function is total and the bonus is 0 there.) -/
def dd_calculate_author_similarity (fr : List Char → List Char → ℚ) :
    Option (List Char) → Option (List Char) → ℚ
  | some a1, some a2 =>
    let norm1 := dd_normalize_text a1
    let norm2 := dd_normalize_text a2
    let words1 := pyWords norm1
    let words2 := pyWords norm2
    let surname1 := words1.getLast?.getD []
    let surname2 := words2.getLast?.getD []
    if surname1 = surname2 ∧ surname1 ≠ [] then 1
    else
      let similarity := fr norm1 norm2 / 100
      let bonus : ℚ :=
        if words1.length = words2.length then
          (((words1.zip words2).countP (fun p => decide (p.1.head? = p.2.head?))) : ℚ) /
            (words1.length : ℚ) * 0.2
        else 0
      min 1 (similarity + bonus)
  | _, _ => 0

/-- The `date_tolerance` default of `RecordDeduplicator` (5 years). -/
def dd_date_tolerance : Int := 5

/-- `RecordDeduplicator.calculate_date_similarity` (lines 187-215): 0 if a year
is missing, else a step function of the absolute year difference. -/
def dd_calculate_date_similarity : Option Int → Option Int → ℚ
  | some y1, some y2 =>
    if y1 = y2 then 1
    else if |y1 - y2| ≤ 1 then 0.9
    else if |y1 - y2| ≤ 2 then 0.7
    else if |y1 - y2| ≤ dd_date_tolerance then 0.5
    else if |y1 - y2| ≤ dd_date_tolerance * 2 then 0.3
    else 0.1
  | _, _ => 0

/-- `RecordDeduplicator.calculate_place_similarity` (lines 217-245): 0 if a
place is missing, else the direct ratio, improved to the word-overlap Jaccard
when both word sets are non-empty. -/
def dd_calculate_place_similarity (fr : List Char → List Char → ℚ) :
    Option (List Char) → Option (List Char) → ℚ
  | some p1, some p2 =>
    let norm1 := dd_normalize_text p1
    let norm2 := dd_normalize_text p2
    let similarity := fr norm1 norm2 / 100
    let w1 := (pyWords norm1).toFinset
    let w2 := (pyWords norm2).toFinset
    if w1.Nonempty ∧ w2.Nonempty then
      max similarity (((w1 ∩ w2).card : ℚ) / ((w1 ∪ w2).card : ℚ))
    else similarity
  | _, _ => 0

/-- `RecordDeduplicator.calculate_overall_similarity` (lines 247-285) with the
default weights `{title: 0.4, author: 0.3, date: 0.2, place: 0.1}`: the fixed
weighted sum of the four signals (missing fields contribute 0 at full weight —
this scorer does not re-normalize). -/
def dd_calculate_overall_similarity (fr tsr : List Char → List Char → ℚ)
    (r1 r2 : DDRecord) : ℚ :=
  dd_calculate_title_similarity fr tsr r1.title r2.title * 0.4 +
  dd_calculate_author_similarity fr r1.author r2.author * 0.3 +
  dd_calculate_date_similarity r1.publication_year r2.publication_year * 0.2 +
  dd_calculate_place_similarity fr r1.publication_place r2.publication_place * 0.1

/-! ### Blocking index, `latin_pub_db/scripts/dedupe.py` (lines 33-38, 173-185) -/

/-- `TITLE_PREFIX_LENGTH` from `dedupe.py`. -/
def TITLE_PREFIX_LENGTH : Nat := 3

/-- `get_title_prefix` from `dedupe.py`: the first `TITLE_PREFIX_LENGTH` words
of the normalized title, joined by single spaces; empty on an empty title. -/
def get_title_prefix (title_normalized : List Char) : List Char :=
  if title_normalized.isEmpty then []
  else joinWords ((pyWords title_normalized).take TITLE_PREFIX_LENGTH)

/-- `record['year'] // 5 * 5` from `deduplicate`: the 5-year bucket.
`Int.fdiv` is Python's floor division. -/
def yearBucket (y : Int) : Int :=
  y.fdiv 5 * 5

/-- The blocking keys a record is filed under in `deduplicate`: its year
bucket and both adjacent buckets, paired with the title prefix — but no key
at all when the prefix is empty. -/
def blockKeys (r : PubRecord) : List (Int × List Char) :=
  let b := yearBucket (r.year.getD 0)
  let p := get_title_prefix r.title_normalized
  if p.isEmpty then [] else [(b, p), (b - 5, p), (b + 5, p)]

/-- Insert a record under a key into the insertion-ordered block list
(Python dict semantics: append to the existing key's list, else push a new
key at the end). -/
def addToBlocks (bs : List ((Int × List Char) × List PubRecord))
    (k : Int × List Char) (r : PubRecord) : List ((Int × List Char) × List PubRecord) :=
  match bs with
  | [] => [(k, [r])]
  | (k', rs) :: rest =>
    if k' = k then (k', rs ++ [r]) :: rest else (k', rs) :: addToBlocks rest k r

/-- File one record under all of its blocking keys. -/
def addRecordKeys (bs : List ((Int × List Char) × List PubRecord))
    (r : PubRecord) : List ((Int × List Char) × List PubRecord) :=
  (blockKeys r).foldl (fun b k => addToBlocks b k r) bs

/-- The `blocks` dict of `deduplicate`, built over the records in their
input order (the SQL result order). -/
def buildBlocks (records : List PubRecord) : List ((Int × List Char) × List PubRecord) :=
  records.foldl addRecordKeys []

/-- The first (and, by construction, only) block entry under a key. -/
def blockOf (bs : List ((Int × List Char) × List PubRecord)) (k : Int × List Char) :
    Option ((Int × List Char) × List PubRecord) :=
  bs.find? (fun kb => decide (kb.1 = k))

/-- `r` is in the block under key `k`. -/
def memBlock (bs : List ((Int × List Char) × List PubRecord))
    (k : Int × List Char) (r : PubRecord) : Prop :=
  ∃ kb, blockOf bs k = some kb ∧ r ∈ kb.2

/-! ### Significant title words, `scripts/bph_ia_fuzzy_match.py` (lines 64-75) -/

/-- The stop-word list of `extract_significant_words`. -/
def fm_stopwords : List (List Char) :=
  ["de", "in", "ad", "et", "ex", "pro", "per", "cum", "ab", "a",
   "the", "of", "and", "or", "to", "from", "by", "with", "for",
   "liber", "libri", "libro", "opus", "opera", "tractatus", "summa",
   "von", "und", "der", "die", "das", "des", "dem", "den", "ein", "eine"].map String.data

/-- `extract_significant_words`: words of the normalized title of length at
least `minLength` (the source's default is 4) that are not stop words. -/
def extract_significant_words (title : List Char) (minLength : Nat) : Finset (List Char) :=
  ((pyWords (normalize_title title)).filter
    (fun w => minLength ≤ w.length && !fm_stopwords.contains w)).toFinset

/-! ### Oracle adapter and match flow, `scripts/matching/bph_ia_agent_match.py` -/

/-- An opening brace character (written by code point to keep string literals
brace-free). -/
def lbrace : Char := Char.ofNat 123

/-- A closing brace character. -/
def rbrace : Char := Char.ofNat 125

/-- The regex search in `llm_evaluate`: the leftmost brace-delimited block
with at least one non-closing-brace character inside (DOTALL, so newlines are
allowed in the body). -/
def findJsonBlock : List Char → Option (List Char)
  | [] => none
  | c :: cs =>
    if c = lbrace then
      let body := cs.takeWhile (fun d => d != rbrace)
      if body.length ≠ 0 ∧ body.length < cs.length then some (lbrace :: body ++ [rbrace])
      else findJsonBlock cs
    else findJsonBlock cs

/-- The three fields `llm_evaluate` reads from the oracle's JSON reply. -/
structure OracleVerdict where
  verdict : String
  confidence : String
  reasoning : String
deriving DecidableEq

/-- A match candidate as produced by `find_candidates`: target identifier,
embedding and fuzzy scores, corroboration booleans, assigned tier. -/
structure MatchCandidate where
  ia_id : String
  embedding_score : ℚ
  fuzzy_score : ℚ
  author_match : Bool
  year_match : Bool
  confidence : String
deriving DecidableEq

/-- The `MatchResult` record of the matcher. -/
structure AgentMatchResult where
  ia_work : Option String
  is_match : Bool
  confidence : String
  match_type : String
  reasoning : String
  method : String
deriving DecidableEq

/-- The result construction shared by the parsed and default branches of
`llm_evaluate`: a match iff the verdict is SAME_EDITION or SAME_WORK;
`match_type` is the lowercased verdict (the source's
`.replace('_', '_')` is the identity). -/
def mkFromParsed (cand : MatchCandidate) (p : OracleVerdict) : AgentMatchResult :=
  let is_match := p.verdict == "SAME_EDITION" || p.verdict == "SAME_WORK"
  ⟨if is_match then some cand.ia_id else none, is_match, p.confidence,
    (p.verdict.data.map pyLowerChar).asString, p.reasoning, "llm"⟩

/-- `llm_evaluate` (lines 372-411) applied to the oracle's textual response.
`jsonLoads` abstracts `json.loads` plus the three dict lookups: `.error msg`
models the raised exception (JSONDecodeError or KeyError) with message
`str(e)`, which the source catches in its `except` clause; no retry is
attempted anywhere. -/
def llm_evaluate (jsonLoads : List Char → Except String OracleVerdict)
    (cand : MatchCandidate) (responseText : String) : AgentMatchResult :=
  match findJsonBlock responseText.data with
  | none => mkFromParsed cand ⟨"DIFFERENT", "low", "Could not parse response"⟩
  | some s =>
    match jsonLoads s with
    | Except.ok p => mkFromParsed cand p
    | Except.error msg =>
      ⟨none, false, "low", "error", "LLM error: " ++ msg, "llm_error"⟩

/-- `match_work` (lines 413-455).  `fmt` abstracts Python's float formatting
inside the reasoning strings; `llmEval` is the oracle path taken for
needs-llm candidates (or for everything below high in full mode);
`candidates` is the list `find_candidates` returns, sorted by descending
embedding score. -/
def match_work (fmt : ℚ → String) (llmEval : MatchCandidate → AgentMatchResult)
    (llmMode : String) (candidates : List MatchCandidate) : AgentMatchResult :=
  match candidates with
  | [] =>
    ⟨none, false, "high", "no_candidates",
      "No candidates found above threshold", "embedding"⟩
  | best :: _ =>
    if best.confidence = "high" then
      ⟨some best.ia_id, true, "high",
        if best.author_match && best.year_match then "same_edition" else "same_work",
        "High embedding score (" ++ fmt best.embedding_score ++ ") with metadata confirmation",
        "embedding"⟩
    else if best.confidence = "medium" ∧ llmMode ≠ "full" then
      ⟨some best.ia_id, true, "medium", "same_work",
        "Good embedding score (" ++ fmt best.embedding_score ++ ") without full metadata match",
        "embedding"⟩
    else if best.confidence = "needs_llm" ∨ llmMode = "full" then
      llmEval best
    else
      ⟨none, false, "high", "no_match",
        "Best candidate score (" ++ fmt best.embedding_score ++ ") below threshold",
        "embedding"⟩

/-! ### Union-find clustering, `latin_pub_db/scripts/dedupe.py` lines 100-235 -/

instance : Inhabited PubRecord := ⟨⟨0, [], none, none⟩⟩

/-- The root of `x` under the parent array (`find` in `find_clusters`).
Roots are reached in at most `parent.size` steps; the source's path
compression only speeds lookups up and does not change roots, so it is
omitted. -/
def ufFind (parent : Array Nat) : Nat → Nat → Nat
  | 0, x => x
  | fuel + 1, x =>
    let p := parent.getD x x
    if p = x then x else ufFind parent fuel p

/-- `union` in `find_clusters`: attach the root of `x` to the root of `y`
(no-op when they already share a root). -/
def ufUnion (parent : Array Nat) (x y : Nat) : Array Nat :=
  let px := ufFind parent parent.size x
  let py := ufFind parent parent.size y
  if px ≠ py then parent.setD px py else parent

/-- All index pairs `(i, j)` with `i < j < n`, in the source's loop order
(for each `i` ascending, `j` runs over `i+1 .. n-1` ascending). -/
def pairIndices (n : Nat) : List (Nat × Nat) :=
  ((List.range n).flatMap (fun i => (List.range n).map (fun j => (i, j)))).filter
    (fun ij => ij.1 < ij.2)

/-- The pair-comparison loop of `find_clusters`: union every index pair whose
similarity reaches `SIMILARITY_THRESHOLD`. -/
def clusterParent (tsr : List Char → List Char → ℚ) (records : List PubRecord) : Array Nat :=
  (pairIndices records.length).foldl
    (fun parent ij =>
      if SIMILARITY_THRESHOLD ≤
          similarity_score tsr (records.getD ij.1 default) (records.getD ij.2 default)
      then ufUnion parent ij.1 ij.2 else parent)
    (Array.range records.length)

/-- Group ids by cluster root in first-occurrence order (the `clusters_map`
dict of `find_clusters`). -/
def addToGroups (gs : List (Nat × List Nat)) (root : Nat) (i : Nat) : List (Nat × List Nat) :=
  match gs with
  | [] => [(root, [i])]
  | (r, ids) :: rest =>
    if r = root then (r, ids ++ [i]) :: rest else (r, ids) :: addToGroups rest root i

/-- `find_clusters` (lines 100-135): union all sufficiently similar pairs,
then group the record ids by root. -/
def find_clusters (tsr : List Char → List Char → ℚ) (records : List PubRecord) :
    List (List Nat) :=
  let n := records.length
  let parent := clusterParent tsr records
  ((List.range n).foldl
    (fun gs i => addToGroups gs (ufFind parent n i) ((records.getD i default).id))
    []).map (·.2)

/-- The `unique_records` loop of `deduplicate`: keep the first record seen for
each id. -/
def uniqueByIdAux (seen : List Nat) : List PubRecord → List PubRecord
  | [] => []
  | r :: rs =>
    if r.id ∈ seen then uniqueByIdAux seen rs
    else r :: uniqueByIdAux (r.id :: seen) rs

/-- Deduplicate a block's record list by id. -/
def uniqueById (rs : List PubRecord) : List PubRecord :=
  uniqueByIdAux [] rs

/-- The cluster-collection loop of `deduplicate` (lines 193-220): process
blocks in insertion order, skip blocks with fewer than two distinct records,
and accept only clusters of size over 1 that are disjoint from every
previously accepted cluster.  Returns (accepted clusters, processed ids). -/
def collectClusters (tsr : List Char → List Char → ℚ)
    (blocks : List ((Int × List Char) × List PubRecord)) :
    List (List Nat) × List Nat :=
  blocks.foldl
    (fun acc kb =>
      if kb.2.length < 2 then acc
      else
        let unique_records := uniqueById kb.2
        if unique_records.length < 2 then acc
        else
          (find_clusters tsr unique_records).foldl
            (fun acc2 cluster =>
              if 1 < cluster.length && cluster.all (fun i => !acc2.2.contains i)
              then (acc2.1 ++ [cluster], acc2.2 ++ cluster) else acc2)
            acc)
    ([], [])

/-- The duplicate clusters of one full `deduplicate` run over the given
records (already blocked as in lines 173-185). -/
def all_clusters (tsr : List Char → List Char → ℚ) (records : List PubRecord) :
    List (List Nat) :=
  (collectClusters tsr (buildBlocks records)).1

/-- `min(cluster)` — the canonical-id choice of `deduplicate` (line 228). -/
def clusterMin : List Nat → Nat
  | [] => 0
  | x :: xs => xs.foldl min x

/-- The `record_id → canonical_id` mapping of one deduplication run: members
of an accepted cluster map to the cluster minimum, everything else to itself
(a NULL `canonical_id` reads as the identity in the output mapping). -/
def canonicalMap (tsr : List Char → List Char → ℚ) (records : List PubRecord) (i : Nat) : Nat :=
  match (all_clusters tsr records).find? (fun cl => cl.contains i) with
  | some cl => clusterMin cl
  | none => i

/-- The canonical records a run leaves behind: the inputs whose id maps to
itself, in input (year-sorted) order. -/
def canonicalRecords (tsr : List Char → List Char → ℚ) (records : List PubRecord) :
    List PubRecord :=
  records.filter (fun r => canonicalMap tsr records r.id == r.id)

/-- Stated from the spec's words for comparison in C8: the number of non-null
required fields of a record (title, creator, year). -/
def spec_nonNullCount (r : PubRecord) : Nat :=
  (if r.title_normalized.isEmpty then 0 else 1) +
    (if r.creator_normalized.isSome then 1 else 0) + (if r.year.isSome then 1 else 0)

/-- Stated from the spec's words for comparison in C8: combined title/creator
string length, the completeness tie-breaker. -/
def spec_strLen (r : PubRecord) : Nat :=
  r.title_normalized.length + (r.creator_normalized.getD []).length

/-- Stated from the spec's words for comparison in C8: `a` beats `b` when it
has more non-null required fields, then longer strings, then a lower id. -/
def spec_better (a b : PubRecord) : Bool :=
  if spec_nonNullCount a ≠ spec_nonNullCount b then spec_nonNullCount b < spec_nonNullCount a
  else if spec_strLen a ≠ spec_strLen b then spec_strLen b < spec_strLen a
  else a.id < b.id

/-- Stated from the spec's words for comparison in C8: the canonical id the
spec's policy would select from a cluster of records. -/
def spec_selectCanonical : List PubRecord → Nat
  | [] => 0
  | r :: rs => (rs.foldl (fun best c => if spec_better c best then c else best) r).id

/-- The ASCII punctuation characters — Python's `string.punctuation`
(the apostrophe, backtick and braces written by code point). -/
def pyPunctuation : List Char :=
  "!\"#$%&\x27()*+,-./:;<=>?@[\\]^_\x60\x7b|\x7d~".data

/-- Canonical whitespace: no leading, no trailing and no repeated whitespace
characters. -/
def wsOk (l : List Char) : Prop :=
  (∀ d, l.head? = some d → pySpace d = false) ∧
    (∀ d, l.getLast? = some d → pySpace d = false) ∧
    List.Chain' (fun a b => ¬(pySpace a = true ∧ pySpace b = true)) l

/-! ## Theorems -/

/-- C3: a candidate pair is tiered 'high' exactly when either the semantic
title score is at least the high threshold 0.85 with at least one
corroborating signal, or it is at least the medium threshold 0.75 with both
the author match and the year match holding. -/
theorem C3_high_tier_iff (score : ℚ) (am ym u : Bool) :
    assignConfidence score am ym u = "high" ↔
      (0.85 ≤ score ∧ (am = true ∨ ym = true)) ∨
        (0.75 ≤ score ∧ am = true ∧ ym = true) := by
  unfold assignConfidence
  split_ifs with h1 h2 h3 h4 h5
  · exact iff_of_true rfl (Or.inl h1)
  · exact iff_of_true rfl (Or.inr h2)
  · exact iff_of_false (by decide) (by tauto)
  · exact iff_of_false (by decide) (by tauto)
  · exact iff_of_false (by cases u <;> decide) (by tauto)
  · exact iff_of_false (by decide) (not_or.mpr ⟨h1, h2⟩)
  · exact iff_of_false (by decide) (not_or.mpr ⟨h1, h2⟩)

/-- A record with only a (non-empty) normalized title, as `similarity_score`
receives when creator and year are NULL. -/
def titleOnlyRecord : PubRecord :=
  ⟨1, "de revolutionibus orbium".data, none, none⟩

/-- C1 (code bug): on a pair of records whose normalized titles agree and
whose other fields are absent, `similarity_score` returns 10000, far above
the 0-100 scale its own docstring declares: the final
`score / weights_total * 100` multiplies the already 0-100-scaled weighted
average by a stray factor of 100. -/
theorem C1_similarity_score_exceeds_scale :
    similarity_score jaccardSim titleOnlyRecord titleOnlyRecord = 10000 ∧
      ¬ similarity_score jaccardSim titleOnlyRecord titleOnlyRecord ≤ 100 := by
  constructor <;> decide

/-- C2 (code bug): `similarity_score` does skip absent signals and
re-normalize the weights over the present ones — but the value it returns is
100 times the weighted average of the present signals, not the weighted
average itself, for every pair of records and any token similarity. -/
theorem C2_similarity_is_hundred_times_weighted_average
    (tsr : List Char → List Char → ℚ) (r1 r2 : PubRecord) :
    similarity_score tsr r1 r2 = 100 * spec_presentWeightedAverage tsr r1 r2 := by
  simp only [similarity_score, spec_presentWeightedAverage]
  split_ifs <;> ring

/-- The in-repo fallback token similarity is symmetric. -/
theorem jaccardSim_symm (a b : List Char) : jaccardSim a b = jaccardSim b a := by
  by_cases h1 : (tokenSet a).Nonempty <;> by_cases h2 : (tokenSet b).Nonempty <;>
    simp [jaccardSim, h1, h2, Finset.inter_comm, Finset.union_comm]

/-- The intra-catalog overall score is symmetric whenever the underlying token
similarity is. -/
theorem similarity_score_symm (tsr : List Char → List Char → ℚ)
    (h : ∀ a b, tsr a b = tsr b a) (r1 r2 : PubRecord) :
    similarity_score tsr r1 r2 = similarity_score tsr r2 r1 := by
  simp only [similarity_score]
  rw [h r1.title_normalized r2.title_normalized,
    h (r1.creator_normalized.getD []) (r2.creator_normalized.getD []),
    abs_sub_comm (r1.year.getD 0) (r2.year.getD 0),
    Bool.and_comm (!r1.title_normalized.isEmpty) (!r2.title_normalized.isEmpty),
    Bool.and_comm (truthyStr r1.creator_normalized) (truthyStr r2.creator_normalized),
    Bool.and_comm (truthyYear r1.year) (truthyYear r2.year)]

/-- Counting initial-letter agreements over a zip is symmetric. -/
theorem countP_zip_head_comm : ∀ (l1 l2 : List (List Char)),
    (l1.zip l2).countP (fun p => decide (p.1.head? = p.2.head?)) =
      (l2.zip l1).countP (fun p => decide (p.1.head? = p.2.head?))
  | [], l2 => by cases l2 <;> rfl
  | _ :: _, [] => rfl
  | a :: t1, b :: t2 => by
    simp only [List.zip_cons_cons, List.countP_cons, countP_zip_head_comm t1 t2]
    have h : (decide (a.head? = b.head?)) = (decide (b.head? = a.head?)) :=
      decide_eq_decide.mpr eq_comm
    rw [h]

/-- The deduplicator title signal is symmetric when the library ratios are. -/
theorem dd_title_symm (fr tsr : List Char → List Char → ℚ)
    (hfr : ∀ a b, fr a b = fr b a) (htsr : ∀ a b, tsr a b = tsr b a) :
    ∀ o1 o2, dd_calculate_title_similarity fr tsr o1 o2 =
      dd_calculate_title_similarity fr tsr o2 o1
  | none, none => rfl
  | none, some _ => rfl
  | some _, none => rfl
  | some t1, some t2 => by
    simp only [dd_calculate_title_similarity]
    rw [hfr (dd_normalize_text t1) (dd_normalize_text t2),
      htsr (dd_normalize_text t1) (dd_normalize_text t2)]
    by_cases h1 : dd_extract_keywords t1 = ∅ <;> by_cases h2 : dd_extract_keywords t2 = ∅ <;>
      simp [h1, h2, Finset.union_eq_empty, Finset.inter_comm, Finset.union_comm]

/-- The deduplicator author signal is symmetric when the library ratio is. -/
theorem dd_author_symm (fr : List Char → List Char → ℚ)
    (hfr : ∀ a b, fr a b = fr b a) :
    ∀ o1 o2, dd_calculate_author_similarity fr o1 o2 =
      dd_calculate_author_similarity fr o2 o1
  | none, none => rfl
  | none, some _ => rfl
  | some _, none => rfl
  | some a1, some a2 => by
    simp only [dd_calculate_author_similarity]
    rw [hfr (dd_normalize_text a1) (dd_normalize_text a2),
      countP_zip_head_comm (pyWords (dd_normalize_text a1)) (pyWords (dd_normalize_text a2))]
    by_cases hs : (pyWords (dd_normalize_text a1)).getLast?.getD [] =
        (pyWords (dd_normalize_text a2)).getLast?.getD [] ∧
        (pyWords (dd_normalize_text a1)).getLast?.getD [] ≠ []
    · have hs2 : (pyWords (dd_normalize_text a2)).getLast?.getD [] =
          (pyWords (dd_normalize_text a1)).getLast?.getD [] ∧
          (pyWords (dd_normalize_text a2)).getLast?.getD [] ≠ [] :=
        ⟨hs.1.symm, hs.1 ▸ hs.2⟩
      rw [if_pos hs, if_pos hs2]
    · have hs2 : ¬((pyWords (dd_normalize_text a2)).getLast?.getD [] =
          (pyWords (dd_normalize_text a1)).getLast?.getD [] ∧
          (pyWords (dd_normalize_text a2)).getLast?.getD [] ≠ []) :=
        fun h => hs ⟨h.1.symm, h.1 ▸ h.2⟩
      rw [if_neg hs, if_neg hs2]
      by_cases hl : (pyWords (dd_normalize_text a1)).length =
          (pyWords (dd_normalize_text a2)).length
      · have hl2 : (pyWords (dd_normalize_text a2)).length =
            (pyWords (dd_normalize_text a1)).length := hl.symm
        rw [if_pos hl, if_pos hl2, hl]
      · have hl2 : ¬((pyWords (dd_normalize_text a2)).length =
            (pyWords (dd_normalize_text a1)).length) := fun h => hl h.symm
        rw [if_neg hl, if_neg hl2]

/-- The deduplicator date signal is symmetric. -/
theorem dd_date_symm : ∀ o1 o2,
    dd_calculate_date_similarity o1 o2 = dd_calculate_date_similarity o2 o1
  | none, none => rfl
  | none, some _ => rfl
  | some _, none => rfl
  | some y1, some y2 => by
    simp only [dd_calculate_date_similarity]
    rw [abs_sub_comm y1 y2]
    by_cases h : y1 = y2
    · have h2 : y2 = y1 := h.symm
      rw [if_pos h, if_pos h2]
    · have h2 : ¬(y2 = y1) := fun e => h e.symm
      rw [if_neg h, if_neg h2]

/-- The deduplicator place signal is symmetric when the library ratio is. -/
theorem dd_place_symm (fr : List Char → List Char → ℚ)
    (hfr : ∀ a b, fr a b = fr b a) :
    ∀ o1 o2, dd_calculate_place_similarity fr o1 o2 =
      dd_calculate_place_similarity fr o2 o1
  | none, none => rfl
  | none, some _ => rfl
  | some _, none => rfl
  | some p1, some p2 => by
    simp only [dd_calculate_place_similarity]
    rw [hfr (dd_normalize_text p1) (dd_normalize_text p2)]
    by_cases h : (pyWords (dd_normalize_text p1)).toFinset.Nonempty ∧
        (pyWords (dd_normalize_text p2)).toFinset.Nonempty
    · have h2 : (pyWords (dd_normalize_text p2)).toFinset.Nonempty ∧
          (pyWords (dd_normalize_text p1)).toFinset.Nonempty := ⟨h.2, h.1⟩
      rw [if_pos h, if_pos h2, Finset.inter_comm, Finset.union_comm]
    · have h2 : ¬((pyWords (dd_normalize_text p2)).toFinset.Nonempty ∧
          (pyWords (dd_normalize_text p1)).toFinset.Nonempty) := fun hh => h ⟨hh.2, hh.1⟩
      rw [if_neg h, if_neg h2]

/-- C5: every similarity signal is symmetric in its two record arguments —
the intra-catalog overall score of `dedupe.py` and the title, author, date,
place and overall signals of `RecordDeduplicator` — provided the third-party
string ratios they delegate to are symmetric (the in-repo fallback
`jaccardSim` is, by `jaccardSim_symm`). -/
theorem C5_similarity_signals_symmetric
    (fr tsr : List Char → List Char → ℚ)
    (hfr : ∀ a b, fr a b = fr b a) (htsr : ∀ a b, tsr a b = tsr b a)
    (r1 r2 : PubRecord) (s1 s2 : DDRecord) :
    similarity_score tsr r1 r2 = similarity_score tsr r2 r1 ∧
    dd_calculate_title_similarity fr tsr s1.title s2.title =
      dd_calculate_title_similarity fr tsr s2.title s1.title ∧
    dd_calculate_author_similarity fr s1.author s2.author =
      dd_calculate_author_similarity fr s2.author s1.author ∧
    dd_calculate_date_similarity s1.publication_year s2.publication_year =
      dd_calculate_date_similarity s2.publication_year s1.publication_year ∧
    dd_calculate_place_similarity fr s1.publication_place s2.publication_place =
      dd_calculate_place_similarity fr s2.publication_place s1.publication_place ∧
    dd_calculate_overall_similarity fr tsr s1 s2 =
      dd_calculate_overall_similarity fr tsr s2 s1 := by
  refine ⟨similarity_score_symm tsr htsr r1 r2,
    dd_title_symm fr tsr hfr htsr _ _, dd_author_symm fr hfr _ _,
    dd_date_symm _ _, dd_place_symm fr hfr _ _, ?_⟩
  unfold dd_calculate_overall_similarity
  rw [dd_title_symm fr tsr hfr htsr, dd_author_symm fr hfr, dd_date_symm,
    dd_place_symm fr hfr]

/-- Witness for C5 at concrete records, with both library ratios instantiated
by the in-repo fallback similarity. -/
theorem C5_similarity_signals_symmetric_witness :
    similarity_score jaccardSim ⟨1, "ars magna".data, some "lullus".data, some 1500⟩
        ⟨2, "ars magna lucis".data, none, some 1502⟩ =
      similarity_score jaccardSim ⟨2, "ars magna lucis".data, none, some 1502⟩
        ⟨1, "ars magna".data, some "lullus".data, some 1500⟩ ∧
    dd_calculate_title_similarity jaccardSim jaccardSim (some "ars magna".data)
        (some "ars magna lucis".data) =
      dd_calculate_title_similarity jaccardSim jaccardSim (some "ars magna lucis".data)
        (some "ars magna".data) ∧
    dd_calculate_author_similarity jaccardSim (some "lullus raimundus".data) none =
      dd_calculate_author_similarity jaccardSim none (some "lullus raimundus".data) ∧
    dd_calculate_date_similarity (some 1500) (some 1502) =
      dd_calculate_date_similarity (some 1502) (some 1500) ∧
    dd_calculate_place_similarity jaccardSim (some "roma".data) (some "romae".data) =
      dd_calculate_place_similarity jaccardSim (some "romae".data) (some "roma".data) ∧
    dd_calculate_overall_similarity jaccardSim jaccardSim
        ⟨some "ars magna".data, some "lullus raimundus".data, some 1500, some "roma".data⟩
        ⟨some "ars magna lucis".data, none, some 1502, some "romae".data⟩ =
      dd_calculate_overall_similarity jaccardSim jaccardSim
        ⟨some "ars magna lucis".data, none, some 1502, some "romae".data⟩
        ⟨some "ars magna".data, some "lullus raimundus".data, some 1500, some "roma".data⟩ :=
  C5_similarity_signals_symmetric jaccardSim jaccardSim jaccardSim_symm jaccardSim_symm
    ⟨1, "ars magna".data, some "lullus".data, some 1500⟩
    ⟨2, "ars magna lucis".data, none, some 1502⟩
    ⟨some "ars magna".data, some "lullus raimundus".data, some 1500, some "roma".data⟩
    ⟨some "ars magna lucis".data, none, some 1502, some "romae".data⟩

/-- `blockOf` on a cons whose head key matches. -/
theorem blockOf_cons_pos {k' k0 : Int × List Char} (rs : List PubRecord)
    (rest : List ((Int × List Char) × List PubRecord)) (h : k' = k0) :
    blockOf ((k', rs) :: rest) k0 = some (k', rs) := by
  unfold blockOf
  rw [List.find?_cons_of_pos]
  simp [h]

/-- `blockOf` on a cons whose head key does not match. -/
theorem blockOf_cons_neg {k' k0 : Int × List Char} (rs : List PubRecord)
    (rest : List ((Int × List Char) × List PubRecord)) (h : ¬ k' = k0) :
    blockOf ((k', rs) :: rest) k0 = blockOf rest k0 := by
  unfold blockOf
  rw [List.find?_cons_of_neg]
  simp [h]

/-- Inserting a record under a key puts it in that key's block. -/
theorem memBlock_addToBlocks_self :
    ∀ (bs : List ((Int × List Char) × List PubRecord)) (k : Int × List Char) (r : PubRecord),
      memBlock (addToBlocks bs k r) k r
  | [], k, r => ⟨(k, [r]), blockOf_cons_pos [r] [] rfl, by simp⟩
  | (k', rs) :: rest, k, r => by
    by_cases h : k' = k
    · refine ⟨(k', rs ++ [r]), ?_, by simp⟩
      rw [show addToBlocks ((k', rs) :: rest) k r = (k', rs ++ [r]) :: rest by
        simp [addToBlocks, h]]
      exact blockOf_cons_pos _ _ h
    · obtain ⟨kb, hfind, hmem⟩ := memBlock_addToBlocks_self rest k r
      refine ⟨kb, ?_, hmem⟩
      rw [show addToBlocks ((k', rs) :: rest) k r = (k', rs) :: addToBlocks rest k r by
        simp [addToBlocks, h]]
      rw [blockOf_cons_neg _ _ h]
      exact hfind

/-- Inserting a record never removes anyone from any block. -/
theorem memBlock_addToBlocks_mono :
    ∀ (bs : List ((Int × List Char) × List PubRecord)) (k : Int × List Char) (r : PubRecord)
      (k0 : Int × List Char) (r0 : PubRecord),
      memBlock bs k0 r0 → memBlock (addToBlocks bs k r) k0 r0
  | [], _, _, _, _ => by
    rintro ⟨kb, h, -⟩
    simp [blockOf] at h
  | (k', rs) :: rest, k, r, k0, r0 => by
    rintro ⟨kb, hf, hm⟩
    by_cases h0 : k' = k0
    · have hkb : kb = (k', rs) := by
        rw [blockOf_cons_pos rs rest h0] at hf
        exact (Option.some_inj.mp hf).symm
      subst hkb
      by_cases hk : k' = k
      · refine ⟨(k', rs ++ [r]), ?_, List.mem_append_left _ hm⟩
        rw [show addToBlocks ((k', rs) :: rest) k r = (k', rs ++ [r]) :: rest by
          simp [addToBlocks, hk]]
        exact blockOf_cons_pos _ _ h0
      · refine ⟨(k', rs), ?_, hm⟩
        rw [show addToBlocks ((k', rs) :: rest) k r = (k', rs) :: addToBlocks rest k r by
          simp [addToBlocks, hk]]
        exact blockOf_cons_pos _ _ h0
    · have hf' : blockOf rest k0 = some kb := by
        rwa [blockOf_cons_neg rs rest h0] at hf
      by_cases hk : k' = k
      · refine ⟨kb, ?_, hm⟩
        rw [show addToBlocks ((k', rs) :: rest) k r = (k', rs ++ [r]) :: rest by
          simp [addToBlocks, hk]]
        rw [blockOf_cons_neg _ _ h0]
        exact hf'
      · obtain ⟨kb', hf2, hm2⟩ := memBlock_addToBlocks_mono rest k r k0 r0 ⟨kb, hf', hm⟩
        refine ⟨kb', ?_, hm2⟩
        rw [show addToBlocks ((k', rs) :: rest) k r = (k', rs) :: addToBlocks rest k r by
          simp [addToBlocks, hk]]
        rw [blockOf_cons_neg _ _ h0]
        exact hf2

/-- Filing a record under a list of keys never removes anyone from a block. -/
theorem memBlock_keyFold_mono (r : PubRecord) :
    ∀ (ks : List (Int × List Char)) (bs : List ((Int × List Char) × List PubRecord))
      (k0 : Int × List Char) (r0 : PubRecord),
      memBlock bs k0 r0 → memBlock (ks.foldl (fun b kk => addToBlocks b kk r) bs) k0 r0
  | [], _, _, _, h => h
  | kk :: ks, bs, k0, r0, h =>
    memBlock_keyFold_mono r ks _ k0 r0 (memBlock_addToBlocks_mono bs kk r k0 r0 h)

/-- After filing a record under its keys, it is in the block of each key. -/
theorem memBlock_keyFold_self (r : PubRecord) :
    ∀ (ks : List (Int × List Char)) (bs : List ((Int × List Char) × List PubRecord))
      (k : Int × List Char), k ∈ ks →
      memBlock (ks.foldl (fun b kk => addToBlocks b kk r) bs) k r
  | [], _, _, h => absurd h (List.not_mem_nil _)
  | kk :: ks, bs, k, h => by
    rcases List.mem_cons.mp h with rfl | h'
    · exact memBlock_keyFold_mono r ks _ k r (memBlock_addToBlocks_self bs k r)
    · exact memBlock_keyFold_self r ks (addToBlocks bs kk r) k h'

/-- Filing further records never removes anyone from a block. -/
theorem memBlock_recFold_mono :
    ∀ (l : List PubRecord) (bs : List ((Int × List Char) × List PubRecord))
      (k0 : Int × List Char) (r0 : PubRecord),
      memBlock bs k0 r0 → memBlock (l.foldl addRecordKeys bs) k0 r0
  | [], _, _, _, h => h
  | rr :: l, bs, k0, r0, h =>
    memBlock_recFold_mono l _ k0 r0 (memBlock_keyFold_mono rr (blockKeys rr) bs k0 r0 h)

/-- Every record of the input ends up in the block of each of its keys. -/
theorem memBlock_buildBlocks :
    ∀ (l : List PubRecord) (bs : List ((Int × List Char) × List PubRecord))
      (r : PubRecord) (k : Int × List Char), r ∈ l → k ∈ blockKeys r →
      memBlock (l.foldl addRecordKeys bs) k r
  | [], _, _, _, h, _ => absurd h (List.not_mem_nil _)
  | rr :: l, bs, r, k, hm, hk => by
    rcases List.mem_cons.mp hm with rfl | h'
    · exact memBlock_recFold_mono l (addRecordKeys bs r) k r
        (memBlock_keyFold_self r (blockKeys r) bs k hk)
    · exact memBlock_buildBlocks l (addRecordKeys bs rr) r k h' hk

/-- The 5-year bucket as a Euclidean division (the divisor is positive, so
Python's floor division agrees). -/
theorem yearBucket_eq_ediv (y : Int) : yearBucket y = y / 5 * 5 := by
  unfold yearBucket
  rw [Int.fdiv_eq_ediv _ (by norm_num)]

/-- C4 (amended): two records of the input with the same non-empty
three-word title prefix and years at most 5 apart always land together in at
least one block — the adjacent-bucket duplication covers every boundary
case.  (Sharing two significant words does not suffice; see the
counterexample.) -/
theorem C4_same_prefix_close_years_coblocked (records : List PubRecord)
    (r1 r2 : PubRecord) (h1 : r1 ∈ records) (h2 : r2 ∈ records)
    (y1 y2 : Int) (hy1 : r1.year = some y1) (hy2 : r2.year = some y2)
    (hp : get_title_prefix r1.title_normalized = get_title_prefix r2.title_normalized)
    (hpne : ( get_title_prefix r1.title_normalized).isEmpty = false)
    (hy : |y1 - y2| ≤ 5) :
    ∃ kb ∈ buildBlocks records, r1 ∈ kb.2 ∧ r2 ∈ kb.2 := by
  have hyabs := abs_le.mp hy
  have hb : yearBucket y2 = yearBucket y1 - 5 ∨ yearBucket y2 = yearBucket y1 ∨
      yearBucket y2 = yearBucket y1 + 5 := by
    rw [yearBucket_eq_ediv, yearBucket_eq_ediv]
    omega
  have hk1 : blockKeys r1 =
      [(yearBucket y1, get_title_prefix r1.title_normalized),
       (yearBucket y1 - 5, get_title_prefix r1.title_normalized),
       (yearBucket y1 + 5, get_title_prefix r1.title_normalized)] := by
    simp [blockKeys, hy1, hpne]
  have hpne2 : ( get_title_prefix r2.title_normalized).isEmpty = false := by
    rw [← hp]; exact hpne
  have hk2 : blockKeys r2 =
      [(yearBucket y2, get_title_prefix r1.title_normalized),
       (yearBucket y2 - 5, get_title_prefix r1.title_normalized),
       (yearBucket y2 + 5, get_title_prefix r1.title_normalized)] := by
    simp [blockKeys, hy2, hpne2, hp]
  obtain ⟨k, hin1, hin2⟩ :
      ∃ k, k ∈ blockKeys r1 ∧ k ∈ blockKeys r2 := by
    rcases hb with hbe | hbe | hbe
    · exact ⟨(yearBucket y1 - 5, get_title_prefix r1.title_normalized),
        by rw [hk1]; simp, by rw [hk2, hbe]; simp⟩
    · exact ⟨(yearBucket y1, get_title_prefix r1.title_normalized),
        by rw [hk1]; simp, by rw [hk2, hbe]; simp⟩
    · exact ⟨(yearBucket y1 + 5, get_title_prefix r1.title_normalized),
        by rw [hk1]; simp, by rw [hk2, hbe]; simp⟩
  obtain ⟨kb, hf, hm1⟩ := memBlock_buildBlocks records [] r1 k h1 hin1
  obtain ⟨kb', hf', hm2⟩ := memBlock_buildBlocks records [] r2 k h2 hin2
  have hkk : kb' = kb := by rw [hf] at hf'; exact (Option.some_inj.mp hf').symm
  exact ⟨kb, List.mem_of_find?_eq_some hf, hm1, hkk ▸ hm2⟩

/-- Witness for the amended C4 at two concrete records four years apart with
identical prefixes. -/
theorem C4_same_prefix_close_years_coblocked_witness :
    ∃ kb ∈ buildBlocks
      [⟨1, "summa theologiae pars prima".data, none, some 1501⟩,
       ⟨2, "summa theologiae pars secunda".data, none, some 1505⟩],
      (⟨1, "summa theologiae pars prima".data, none, some 1501⟩ : PubRecord) ∈ kb.2 ∧
      (⟨2, "summa theologiae pars secunda".data, none, some 1505⟩ : PubRecord) ∈ kb.2 :=
  C4_same_prefix_close_years_coblocked _ _ _ (by simp) (by simp) 1501 1505 rfl rfl
    (by decide) (by decide) (by decide)

/-- C4 (counterexample to the claim as stated): two records sharing all three
of their significant title words, with equal years, that never co-occur in a
block — the blocking key needs the first three words in the same order, and
word-order variance defeats it. -/
theorem C4_shared_words_not_coblocked_counterexample :
    2 ≤ ((extract_significant_words "aquila bubo cervus".data 4) ∩
        (extract_significant_words "bubo aquila cervus".data 4)).card ∧
    |(1500 : Int) - 1500| ≤ 5 ∧
    ∀ kb ∈ buildBlocks
      [⟨1, "aquila bubo cervus".data, none, some 1500⟩,
       ⟨2, "bubo aquila cervus".data, none, some 1500⟩],
      ¬((⟨1, "aquila bubo cervus".data, none, some 1500⟩ : PubRecord) ∈ kb.2 ∧
        (⟨2, "bubo aquila cervus".data, none, some 1500⟩ : PubRecord) ∈ kb.2) := by
  decide

/-- C6 (amended): a malformed oracle response is degraded, never fatal, and
with no retry — but the raw response text is not retained.  When no JSON
block is found, the verdict defaults to DIFFERENT with confidence low and the
fixed rationale "Could not parse response"; when a JSON block is found but
parsing raises, the result is a non-match with confidence low, match type
'error' and rationale "LLM error: " followed by the exception message. -/
theorem C6_malformed_oracle_response_degraded
    (jsonLoads : List Char → Except String OracleVerdict)
    (cand : MatchCandidate) (text : String) :
    (findJsonBlock text.data = none →
      llm_evaluate jsonLoads cand text =
        ⟨none, false, "low", "different", "Could not parse response", "llm"⟩) ∧
    (∀ s msg, findJsonBlock text.data = some s → jsonLoads s = Except.error msg →
      llm_evaluate jsonLoads cand text =
        ⟨none, false, "low", "error", "LLM error: " ++ msg, "llm_error"⟩) := by
  constructor
  · intro h
    simp only [llm_evaluate, h]
    simp only [mkFromParsed]
    norm_num
    refine ⟨fun h' => ?_, by decide⟩
    rcases h' with h' | h' <;> exact absurd h' (by decide)
  · intro s msg hs hj
    simp only [llm_evaluate, hs, hj]

/-- Witness for the amended C6: a braceless response and a response whose
brace block fails to parse, both at a concrete candidate. -/
theorem C6_malformed_oracle_response_degraded_witness :
    llm_evaluate (fun _ => Except.error "Expecting value: line 1 column 2 (char 1)")
        ⟨"ia1", 0.7, 50, false, false, "needs_llm"⟩ "the records describe the same work" =
      ⟨none, false, "low", "different", "Could not parse response", "llm"⟩ ∧
    llm_evaluate (fun _ => Except.error "Expecting value: line 1 column 2 (char 1)")
        ⟨"ia1", 0.7, 50, false, false, "needs_llm"⟩ "reply: \x7bnot json\x7d" =
      ⟨none, false, "low", "error",
        "LLM error: " ++ "Expecting value: line 1 column 2 (char 1)", "llm_error"⟩ :=
  ⟨(C6_malformed_oracle_response_degraded _ _ _).1 (by decide),
   (C6_malformed_oracle_response_degraded _ _ _).2 "\x7bnot json\x7d".data
     "Expecting value: line 1 column 2 (char 1)" (by decide) rfl⟩

/-- C6 (counterexample to the claim as stated): on a malformed response the
rationale is the fixed string "Could not parse response"; the raw response
text is not retained in it. -/
theorem C6_raw_response_not_retained_counterexample :
    (llm_evaluate (fun _ => Except.error "err")
        ⟨"ia1", 0.7, 50, false, false, "needs_llm"⟩
        "the records describe the same work").is_match = false ∧
    (llm_evaluate (fun _ => Except.error "err")
        ⟨"ia1", 0.7, 50, false, false, "needs_llm"⟩
        "the records describe the same work").confidence = "low" ∧
    ¬ ("the records describe the same work".data <:+:
      (llm_evaluate (fun _ => Except.error "err")
        ⟨"ia1", 0.7, 50, false, false, "needs_llm"⟩
        "the records describe the same work").reasoning.data) := by
  refine ⟨rfl, rfl, ?_⟩
  decide

/-- C9 (amended): outside full mode the two no-match causes are distinguished
and never conflated: an empty candidate list yields a null target with the
'no_candidates' result, while a best candidate in the 'low' tier — which is
what `find_candidates` assigns whenever the score is below the low threshold
0.60 — yields a null target with the 'no_match' below-threshold rationale.
(In full mode a below-threshold candidate is sent to the oracle instead; see
the counterexample.) -/
theorem C9_no_match_causes_distinguished (fmt : ℚ → String)
    (llmEval : MatchCandidate → AgentMatchResult) (llmMode : String) :
    ((match_work fmt llmEval llmMode []).ia_work = none ∧
      (match_work fmt llmEval llmMode []).match_type = "no_candidates") ∧
    (∀ best rest, best.confidence = "low" → llmMode ≠ "full" →
      (match_work fmt llmEval llmMode (best :: rest)).ia_work = none ∧
      (match_work fmt llmEval llmMode (best :: rest)).match_type = "no_match" ∧
      (match_work fmt llmEval llmMode (best :: rest)).reasoning =
        "Best candidate score (" ++ fmt best.embedding_score ++ ") below threshold") ∧
    (∀ score am ym u, score < 0.60 → assignConfidence score am ym u = "low") ∧
    ("no_candidates" : String) ≠ "no_match" := by
  refine ⟨⟨rfl, rfl⟩, ?_, ?_, by decide⟩
  · intro best rest hconf hmode
    have h1 : ¬ best.confidence = "high" := by rw [hconf]; decide
    have h2 : ¬ (best.confidence = "medium" ∧ llmMode ≠ "full") := by
      rintro ⟨h, -⟩; rw [hconf] at h; exact absurd h (by decide)
    have h3 : ¬ (best.confidence = "needs_llm" ∨ llmMode = "full") := by
      rintro (h | h)
      · rw [hconf] at h; exact absurd h (by decide)
      · exact hmode h
    simp only [match_work]
    rw [if_neg h1, if_neg h2, if_neg h3]
    exact ⟨rfl, rfl, rfl⟩
  · intro score am ym u hlt
    unfold assignConfidence
    split_ifs with h1 h2 h3 h4 h5
    · exact absurd h1.1 (by intro h; linarith)
    · exact absurd h2.1 (by intro h; linarith)
    · exact absurd h3 (by intro h; linarith)
    · exact absurd h4.1 (by intro h; linarith)
    · exact absurd h5 (by intro h; linarith)
    · exact absurd h5 (by intro h; linarith)
    · rfl

/-- Witness for the amended C9 at a concrete candidate whose score 0.5 is
below the low threshold, in hybrid mode. -/
theorem C9_no_match_causes_distinguished_witness :
    ((match_work (fun _ => "0.500") (fun _ => ⟨none, false, "low", "error", "e", "llm_error"⟩)
        "hybrid" []).ia_work = none ∧
      (match_work (fun _ => "0.500") (fun _ => ⟨none, false, "low", "error", "e", "llm_error"⟩)
        "hybrid" []).match_type = "no_candidates") ∧
    ((match_work (fun _ => "0.500") (fun _ => ⟨none, false, "low", "error", "e", "llm_error"⟩)
        "hybrid" [⟨"ia1", 0.5, 40, false, false, "low"⟩]).ia_work = none ∧
      (match_work (fun _ => "0.500") (fun _ => ⟨none, false, "low", "error", "e", "llm_error"⟩)
        "hybrid" [⟨"ia1", 0.5, 40, false, false, "low"⟩]).match_type = "no_match" ∧
      (match_work (fun _ => "0.500") (fun _ => ⟨none, false, "low", "error", "e", "llm_error"⟩)
        "hybrid" [⟨"ia1", 0.5, 40, false, false, "low"⟩]).reasoning =
        "Best candidate score (" ++ (fun (_ : ℚ) => "0.500") (0.5 : ℚ) ++ ") below threshold") ∧
    assignConfidence 0.5 false false true = "low" := by
  obtain ⟨ha, hb, hc, -⟩ := C9_no_match_causes_distinguished (fun _ => "0.500")
    (fun _ => ⟨none, false, "low", "error", "e", "llm_error"⟩) "hybrid"
  exact ⟨ha, hb ⟨"ia1", 0.5, 40, false, false, "low"⟩ [] rfl (by decide),
    hc 0.5 false false true (by norm_num)⟩

/-- C9 (counterexample to the claim as stated): in full mode a candidate
scoring 0.5 — below the low threshold, hence tiered 'low' — is handed to the
oracle, which can return a match, so the result's target is not null and
carries no below-threshold rationale. -/
theorem C9_full_mode_below_threshold_counterexample :
    assignConfidence 0.5 false false true = "low" ∧
    (match_work (fun _ => "0.500")
        (fun c => llm_evaluate
          (fun _ => Except.ok ⟨"SAME_WORK", "medium", "Latin title variants of one work"⟩)
          c "\x7b\"verdict\": \"SAME_WORK\"\x7d")
        "full" [⟨"ia1", 0.5, 40, false, false, "low"⟩]).ia_work = some "ia1" := by
  constructor
  · decide
  · decide

/-- C7 (counterexample to idempotence as claimed): three same-titled records
in years 1492, 1500, 1510.  The 1495-bucket block clusters ids 2 and 1;
the 1505-bucket block's cluster of ids 1 and 3 is then skipped because id 1
was already processed, so the first run leaves canonical records 1 and 3 —
but re-running on those merges 3 into 1: the mapping is not the identity. -/
theorem C7_rerun_not_identity_counterexample :
    canonicalMap jaccardSim
      [⟨2, "titulus unus verba".data, none, some 1492⟩,
       ⟨1, "titulus unus verba".data, none, some 1500⟩,
       ⟨3, "titulus unus verba".data, none, some 1510⟩] 2 = 1 ∧
    canonicalMap jaccardSim
      [⟨2, "titulus unus verba".data, none, some 1492⟩,
       ⟨1, "titulus unus verba".data, none, some 1500⟩,
       ⟨3, "titulus unus verba".data, none, some 1510⟩] 3 = 3 ∧
    canonicalRecords jaccardSim
      [⟨2, "titulus unus verba".data, none, some 1492⟩,
       ⟨1, "titulus unus verba".data, none, some 1500⟩,
       ⟨3, "titulus unus verba".data, none, some 1510⟩] =
      [⟨1, "titulus unus verba".data, none, some 1500⟩,
       ⟨3, "titulus unus verba".data, none, some 1510⟩] ∧
    canonicalMap jaccardSim
      [⟨1, "titulus unus verba".data, none, some 1500⟩,
       ⟨3, "titulus unus verba".data, none, some 1510⟩] 3 = 1 ∧
    (3 : Nat) ≠ 1 := by
  decide

/-- C8 (counterexample to the claim as stated): a cluster whose record 2 has
strictly more non-null required fields than record 1; the spec's policy picks
2 but the code picks the lowest id, 1. -/
theorem C8_canonical_not_most_complete_counterexample :
    canonicalMap jaccardSim
      [⟨1, "titulus unus verba".data, none, some 1500⟩,
       ⟨2, "titulus unus verba".data, some "auctor quidam".data, some 1500⟩] 2 = 1 ∧
    spec_selectCanonical
      [⟨1, "titulus unus verba".data, none, some 1500⟩,
       ⟨2, "titulus unus verba".data, some "auctor quidam".data, some 1500⟩] = 2 ∧
    spec_nonNullCount ⟨1, "titulus unus verba".data, none, some 1500⟩ <
      spec_nonNullCount ⟨2, "titulus unus verba".data, some "auctor quidam".data, some 1500⟩ ∧
    (1 : Nat) ≠ 2 := by
  decide

/-- Members of `pairIndices n` satisfy `i < j < n`. -/
theorem pairIndices_mem {n i j : Nat} (h : (i, j) ∈ pairIndices n) : i < j ∧ j < n := by
  unfold pairIndices at h
  obtain ⟨hmem, hlt⟩ := List.mem_filter.mp h
  refine ⟨by simpa using hlt, ?_⟩
  obtain ⟨a, -, hm⟩ := List.mem_flatMap.mp hmem
  obtain ⟨b, hb, he⟩ := List.mem_map.mp hm
  obtain ⟨rfl, rfl⟩ := Prod.mk.injEq .. ▸ he
  exact List.mem_range.mp hb

/-- Roots under the identity parent array are the elements themselves. -/
theorem ufFind_range (n : Nat) : ∀ (fuel x : Nat), ufFind (Array.range n) fuel x = x
  | 0, _ => rfl
  | fuel + 1, x => by
    have hget : (Array.range n).getD x x = x := by
      unfold Array.getD
      split
      · exact Array.getElem_range _
      · rfl
    unfold ufFind
    simp [hget]

/-- Adding to a root not yet present appends a fresh singleton group. -/
theorem addToGroups_fresh :
    ∀ (gs : List (Nat × List Nat)) (root i : Nat), (∀ g ∈ gs, g.1 ≠ root) →
      addToGroups gs root i = gs ++ [(root, [i])]
  | [], _, _, _ => rfl
  | (r, ids) :: rest, root, i, h => by
    unfold addToGroups
    rw [if_neg (h (r, ids) (by simp))]
    rw [addToGroups_fresh rest root i (fun g hg => h g (List.mem_cons_of_mem _ hg))]
    simp

/-- Grouping by pairwise-distinct roots produces only fresh singleton
groups. -/
theorem groups_id_singletons (f : Nat → Nat) :
    ∀ (l : List Nat) (gs : List (Nat × List Nat)),
      l.Nodup → (∀ g ∈ gs, ∀ j ∈ l, g.1 ≠ j) →
      (l.foldl (fun gs i => addToGroups gs i (f i)) gs).map (·.2) =
        gs.map (·.2) ++ l.map (fun i => [f i])
  | [], gs, _, _ => by simp
  | i :: l, gs, hnd, hg => by
    rw [List.foldl_cons,
      addToGroups_fresh gs i (f i) (fun g hgm => hg g hgm i (List.mem_cons_self i l)),
      groups_id_singletons f l (gs ++ [(i, [f i])]) (List.Nodup.of_cons hnd) ?_]
    · simp
    · intro g hgm j hj
      rcases List.mem_append.mp hgm with h1 | h1
      · exact hg g h1 j (List.mem_cons_of_mem _ hj)
      · have : g = (i, [f i]) := by simpa using h1
        subst this
        intro he
        apply (List.nodup_cons.mp hnd).1
        rw [show i = j from he]
        exact hj

/-- When no pair reaches the threshold, the union loop leaves the identity
parent array. -/
theorem clusterParent_id (tsr : List Char → List Char → ℚ) (records : List PubRecord)
    (h : ∀ ij ∈ pairIndices records.length,
      ¬ SIMILARITY_THRESHOLD ≤
        similarity_score tsr (records.getD ij.1 default) (records.getD ij.2 default)) :
    clusterParent tsr records = Array.range records.length := by
  unfold clusterParent
  have main : ∀ (ps : List (Nat × Nat)) (parent : Array Nat),
      (∀ ij ∈ ps, ¬ SIMILARITY_THRESHOLD ≤
        similarity_score tsr (records.getD ij.1 default) (records.getD ij.2 default)) →
      ps.foldl
        (fun parent ij =>
          if SIMILARITY_THRESHOLD ≤
              similarity_score tsr (records.getD ij.1 default) (records.getD ij.2 default)
          then ufUnion parent ij.1 ij.2 else parent) parent = parent := by
    intro ps
    induction ps with
    | nil => intro parent _; rfl
    | cons hd tl ih =>
      intro parent hh
      rw [List.foldl_cons, if_neg (hh hd (List.mem_cons_self hd tl))]
      exact ih parent (fun ij hij => hh ij (List.mem_cons_of_mem _ hij))
  exact main _ _ h

/-- When no pair reaches the threshold, every cluster is a singleton. -/
theorem find_clusters_singletons (tsr : List Char → List Char → ℚ) (rs : List PubRecord)
    (h : ∀ ij ∈ pairIndices rs.length,
      ¬ SIMILARITY_THRESHOLD ≤
        similarity_score tsr (rs.getD ij.1 default) (rs.getD ij.2 default)) :
    ∀ cl ∈ find_clusters tsr rs, cl.length = 1 := by
  intro cl hcl
  unfold find_clusters at hcl
  rw [clusterParent_id tsr rs h] at hcl
  simp only [ufFind_range] at hcl
  rw [groups_id_singletons (fun i => (rs.getD i default).id) (List.range rs.length) []
    (List.nodup_range _) (by intro g hg; simp at hg)] at hcl
  simp only [List.map_nil, List.nil_append, List.mem_map] at hcl
  obtain ⟨i, -, rfl⟩ := hcl
  rfl

/-- The id-deduplicated list is a sublist of the input, memberwise. -/
theorem uniqueByIdAux_subset :
    ∀ (seen : List Nat) (l : List PubRecord) (r : PubRecord),
      r ∈ uniqueByIdAux seen l → r ∈ l
  | _, [], _, h => absurd h (List.not_mem_nil _)
  | seen, r0 :: rs, r, h => by
    unfold uniqueByIdAux at h
    split at h
    · exact List.mem_cons_of_mem _ (uniqueByIdAux_subset seen rs r h)
    · rcases List.mem_cons.mp h with rfl | h'
      · exact List.mem_cons_self _ _
      · exact List.mem_cons_of_mem _ (uniqueByIdAux_subset _ rs r h')

/-- The id-deduplicated list has pairwise distinct ids, none of them seen. -/
theorem uniqueByIdAux_ids_nodup :
    ∀ (seen : List Nat) (l : List PubRecord),
      ((uniqueByIdAux seen l).map (·.id)).Nodup ∧
        ∀ r ∈ uniqueByIdAux seen l, r.id ∉ seen
  | _, [] => ⟨List.nodup_nil, by intro r h; exact absurd h (List.not_mem_nil _)⟩
  | seen, r0 :: rs => by
    unfold uniqueByIdAux
    split
    · exact uniqueByIdAux_ids_nodup seen rs
    · obtain ⟨hnd, hns⟩ := uniqueByIdAux_ids_nodup (r0.id :: seen) rs
      refine ⟨List.nodup_cons.mpr ⟨?_, hnd⟩, ?_⟩
      · intro hmem
        obtain ⟨r, hr, hid⟩ := List.mem_map.mp hmem
        exact hns r hr (hid ▸ List.mem_cons_self _ _)
      · intro r hr
        rcases List.mem_cons.mp hr with rfl | h'
        · assumption
        · exact fun hs => hns r h' (List.mem_cons_of_mem _ hs)

/-- A record found in a block after one insertion came from the old blocks or
is the inserted record. -/
theorem addToBlocks_members :
    ∀ (bs : List ((Int × List Char) × List PubRecord)) (k : Int × List Char)
      (rr : PubRecord) (kb : (Int × List Char) × List PubRecord) (r : PubRecord),
      kb ∈ addToBlocks bs k rr → r ∈ kb.2 → (∃ kb0 ∈ bs, r ∈ kb0.2) ∨ r = rr
  | [], k, rr, kb, r, hkb, hr => by
    have : kb = (k, [rr]) := by simpa [addToBlocks] using hkb
    subst this
    right
    simpa using hr
  | (k', rs) :: rest, k, rr, kb, r, hkb, hr => by
    by_cases hk : k' = k
    · rw [show addToBlocks ((k', rs) :: rest) k rr = (k', rs ++ [rr]) :: rest by
        simp [addToBlocks, hk]] at hkb
      rcases List.mem_cons.mp hkb with rfl | h'
      · rcases List.mem_append.mp hr with h1 | h1
        · exact Or.inl ⟨(k', rs), List.mem_cons_self _ _, h1⟩
        · exact Or.inr (by simpa using h1)
      · exact Or.inl ⟨kb, List.mem_cons_of_mem _ h', hr⟩
    · rw [show addToBlocks ((k', rs) :: rest) k rr = (k', rs) :: addToBlocks rest k rr by
        simp [addToBlocks, hk]] at hkb
      rcases List.mem_cons.mp hkb with rfl | h'
      · exact Or.inl ⟨(k', rs), List.mem_cons_self _ _, hr⟩
      · rcases addToBlocks_members rest k rr kb r h' hr with ⟨kb0, hkb0, hr0⟩ | he
        · exact Or.inl ⟨kb0, List.mem_cons_of_mem _ hkb0, hr0⟩
        · exact Or.inr he

/-- A record found in a block after filing `rr` under all its keys came from
the old blocks or is `rr`. -/
theorem addRecordKeys_members :
    ∀ (ks : List (Int × List Char)) (bs : List ((Int × List Char) × List PubRecord))
      (rr : PubRecord) (kb : (Int × List Char) × List PubRecord) (r : PubRecord),
      kb ∈ ks.foldl (fun b kk => addToBlocks b kk rr) bs → r ∈ kb.2 →
      (∃ kb0 ∈ bs, r ∈ kb0.2) ∨ r = rr
  | [], _, _, _, _, hkb, hr => Or.inl ⟨_, hkb, hr⟩
  | kk :: ks, bs, rr, kb, r, hkb, hr => by
    rcases addRecordKeys_members ks (addToBlocks bs kk rr) rr kb r hkb hr with ⟨kb0, h0, hr0⟩ | he
    · exact addToBlocks_members bs kk rr kb0 r h0 hr0
    · exact Or.inr he

/-- Every record in any block of `buildBlocks` is one of the input records. -/
theorem buildBlocks_members :
    ∀ (l : List PubRecord) (bs : List ((Int × List Char) × List PubRecord))
      (kb : (Int × List Char) × List PubRecord) (r : PubRecord),
      kb ∈ l.foldl addRecordKeys bs → r ∈ kb.2 →
      (∃ kb0 ∈ bs, r ∈ kb0.2) ∨ r ∈ l
  | [], _, _, _, hkb, hr => Or.inl ⟨_, hkb, hr⟩
  | rr :: l, bs, kb, r, hkb, hr => by
    rcases buildBlocks_members l (addRecordKeys bs rr) kb r hkb hr with ⟨kb0, h0, hr0⟩ | hl
    · rcases addRecordKeys_members (blockKeys rr) bs rr kb0 r h0 hr0 with h | he
      · exact Or.inl h
      · exact Or.inr (he ▸ List.mem_cons_self _ _)
    · exact Or.inr (List.mem_cons_of_mem _ hl)

/-- Under the all-pairs-below-threshold hypothesis, the deduplicated records
of any sublist of the input score below threshold on every index pair. -/
theorem uniqueById_pairs_below (tsr : List Char → List Char → ℚ)
    (records : List PubRecord)
    (h : ∀ r1 ∈ records, ∀ r2 ∈ records, r1.id ≠ r2.id →
      similarity_score tsr r1 r2 < SIMILARITY_THRESHOLD)
    (rs : List PubRecord) (hsub : ∀ r ∈ rs, r ∈ records) :
    ∀ ij ∈ pairIndices (uniqueById rs).length,
      ¬ SIMILARITY_THRESHOLD ≤
        similarity_score tsr ((uniqueById rs).getD ij.1 default)
          ((uniqueById rs).getD ij.2 default) := by
  rintro ⟨i, j⟩ hij
  obtain ⟨hij1, hij2⟩ := pairIndices_mem hij
  have hi : i < (uniqueById rs).length := lt_trans hij1 hij2
  have hgi : (uniqueById rs).getD i default = (uniqueById rs).get ⟨i, hi⟩ := by
    rw [List.getD_eq_getElem?_getD, List.getElem?_eq_getElem hi]
    rfl
  have hgj : (uniqueById rs).getD j default = (uniqueById rs).get ⟨j, hij2⟩ := by
    rw [List.getD_eq_getElem?_getD, List.getElem?_eq_getElem hij2]
    rfl
  have hmi : (uniqueById rs).get ⟨i, hi⟩ ∈ uniqueById rs := List.get_mem _ _ _
  have hmj : (uniqueById rs).get ⟨j, hij2⟩ ∈ uniqueById rs := List.get_mem _ _ _
  have hri : (uniqueById rs).get ⟨i, hi⟩ ∈ records :=
    hsub _ (uniqueByIdAux_subset [] rs _ hmi)
  have hrj : (uniqueById rs).get ⟨j, hij2⟩ ∈ records :=
    hsub _ (uniqueByIdAux_subset [] rs _ hmj)
  have hnd := (uniqueByIdAux_ids_nodup [] rs).1
  have hne : ((uniqueById rs).get ⟨i, hi⟩).id ≠ ((uniqueById rs).get ⟨j, hij2⟩).id := by
    intro he
    have hlen : ((uniqueById rs).map (·.id)).length = (uniqueById rs).length :=
      List.length_map _ _
    have : ((uniqueById rs).map (·.id)).get ⟨i, by rw [hlen]; exact hi⟩ =
        ((uniqueById rs).map (·.id)).get ⟨j, by rw [hlen]; exact hij2⟩ := by
      rw [List.get_map, List.get_map]
      exact he
    have := List.Nodup.get_inj_iff hnd |>.mp this
    simp at this
    exact absurd this (Nat.ne_of_lt hij1)
  rw [hgi, hgj]
  exact not_le.mpr (h _ hri _ hrj hne)

/-- A fold over singleton clusters accepts nothing. -/
theorem foldl_singleton_clusters :
    ∀ (cls : List (List Nat)) (acc : List (List Nat) × List Nat),
      (∀ cl ∈ cls, cl.length = 1) →
      cls.foldl
        (fun acc2 cluster =>
          if 1 < cluster.length && cluster.all (fun i => !acc2.2.contains i)
          then (acc2.1 ++ [cluster], acc2.2 ++ cluster) else acc2) acc = acc
  | [], _, _ => rfl
  | cl :: cls, acc, h => by
    rw [List.foldl_cons]
    have h1 : cl.length = 1 := h cl (List.mem_cons_self _ _)
    rw [if_neg (by simp [h1])]
    exact foldl_singleton_clusters cls acc (fun c hc => h c (List.mem_cons_of_mem _ hc))

/-- Under the all-pairs-below-threshold hypothesis no cluster is ever
accepted, whatever the blocks, as long as their members are input records. -/
theorem collectClusters_no_merges (tsr : List Char → List Char → ℚ)
    (records : List PubRecord)
    (h : ∀ r1 ∈ records, ∀ r2 ∈ records, r1.id ≠ r2.id →
      similarity_score tsr r1 r2 < SIMILARITY_THRESHOLD) :
    ∀ (blocks : List ((Int × List Char) × List PubRecord)),
      (∀ kb ∈ blocks, ∀ r ∈ kb.2, r ∈ records) →
      ∀ acc, blocks.foldl
        (fun acc kb =>
          if kb.2.length < 2 then acc
          else
            let unique_records := uniqueById kb.2
            if unique_records.length < 2 then acc
            else
              (find_clusters tsr unique_records).foldl
                (fun acc2 cluster =>
                  if 1 < cluster.length && cluster.all (fun i => !acc2.2.contains i)
                  then (acc2.1 ++ [cluster], acc2.2 ++ cluster) else acc2)
                acc) acc = acc
  | [], _, _ => rfl
  | kb :: blocks, hmem, acc => by
    rw [List.foldl_cons]
    have hstep :
        (if kb.2.length < 2 then acc
         else
           let unique_records := uniqueById kb.2
           if unique_records.length < 2 then acc
           else
             (find_clusters tsr unique_records).foldl
               (fun acc2 cluster =>
                 if 1 < cluster.length && cluster.all (fun i => !acc2.2.contains i)
                 then (acc2.1 ++ [cluster], acc2.2 ++ cluster) else acc2)
               acc) = acc := by
      by_cases h2 : kb.2.length < 2
      · rw [if_pos h2]
      · rw [if_neg h2]
        by_cases h3 : (uniqueById kb.2).length < 2
        · simp only [h3, if_true]
        · simp only [h3, if_false]
          exact foldl_singleton_clusters _ acc
            (find_clusters_singletons tsr (uniqueById kb.2)
              (uniqueById_pairs_below tsr records h kb.2
                (hmem kb (List.mem_cons_self _ _))))
    rw [hstep]
    exact collectClusters_no_merges tsr records h blocks
      (fun kb' h' => hmem kb' (List.mem_cons_of_mem _ h')) acc

/-- C7 (amended): deduplication is not idempotent in general (see the
counterexample: the per-block skip of clusters overlapping earlier ones can
leave two canonical records whose similarity still reaches the threshold,
and a re-run merges them).  Re-running does yield the identity mapping
whenever every pair of distinct input records scores below the similarity
threshold — in particular a re-run on canonical records creates no new
merges exactly when no above-threshold canonical pair remains. -/
theorem C7_identity_when_all_pairs_below_threshold (tsr : List Char → List Char → ℚ)
    (records : List PubRecord)
    (h : ∀ r1 ∈ records, ∀ r2 ∈ records, r1.id ≠ r2.id →
      similarity_score tsr r1 r2 < SIMILARITY_THRESHOLD) (i : Nat) :
    canonicalMap tsr records i = i := by
  have hac : all_clusters tsr records = [] := by
    unfold all_clusters collectClusters
    have hmem : ∀ kb ∈ buildBlocks records, ∀ r ∈ kb.2, r ∈ records := by
      intro kb hkb r hr
      rcases buildBlocks_members records [] kb r hkb hr with ⟨kb0, h0, -⟩ | hl
      · exact absurd h0 (List.not_mem_nil _)
      · exact hl
    rw [collectClusters_no_merges tsr records h (buildBlocks records) hmem ([], [])]
  simp [canonicalMap, hac]

/-- Witness for the amended C7: two records with unrelated titles and distant
years score 0 and are left untouched, each mapping to itself. -/
theorem C7_identity_when_all_pairs_below_threshold_witness :
    canonicalMap jaccardSim
      [⟨1, "alpha beta".data, none, some 1500⟩,
       ⟨2, "gamma delta".data, none, some 1600⟩] 1 = 1 ∧
    canonicalMap jaccardSim
      [⟨1, "alpha beta".data, none, some 1500⟩,
       ⟨2, "gamma delta".data, none, some 1600⟩] 2 = 2 :=
  ⟨C7_identity_when_all_pairs_below_threshold jaccardSim _ (by decide) 1,
   C7_identity_when_all_pairs_below_threshold jaccardSim _ (by decide) 2⟩

/-- A fold by `min` is a lower bound of the seed and the elements. -/
theorem foldl_min_le : ∀ (xs : List Nat) (x : Nat),
    xs.foldl min x ≤ x ∧ ∀ j ∈ xs, xs.foldl min x ≤ j
  | [], x => ⟨le_refl x, by intro j hj; exact absurd hj (List.not_mem_nil _)⟩
  | a :: xs, x => by
    rw [List.foldl_cons]
    obtain ⟨h1, h2⟩ := foldl_min_le xs (min x a)
    refine ⟨le_trans h1 (min_le_left x a), ?_⟩
    intro j hj
    rcases List.mem_cons.mp hj with rfl | hj'
    · exact le_trans h1 (min_le_right x j)
    · exact h2 j hj'

/-- A fold by `min` is the seed or one of the elements. -/
theorem foldl_min_mem : ∀ (xs : List Nat) (x : Nat),
    xs.foldl min x = x ∨ xs.foldl min x ∈ xs
  | [], x => Or.inl rfl
  | a :: xs, x => by
    rw [List.foldl_cons]
    rcases foldl_min_mem xs (min x a) with he | hm
    · rcases min_choice x a with hc | hc
      · exact Or.inl (he.trans hc)
      · exact Or.inr (by rw [he, hc]; exact List.mem_cons_self _ _)
    · exact Or.inr (List.mem_cons_of_mem _ hm)

/-- The canonical id of a non-empty cluster is one of its members. -/
theorem clusterMin_mem : ∀ (cl : List Nat), cl ≠ [] → clusterMin cl ∈ cl
  | [], h => absurd rfl h
  | x :: xs, _ => by
    show xs.foldl min x ∈ x :: xs
    rcases foldl_min_mem xs x with he | hm
    · rw [he]; exact List.mem_cons_self _ _
    · exact List.mem_cons_of_mem _ hm

/-- The canonical id of a cluster is its least member. -/
theorem clusterMin_le : ∀ (cl : List Nat), ∀ j ∈ cl, clusterMin cl ≤ j
  | [], j, hj => absurd hj (List.not_mem_nil _)
  | x :: xs, j, hj => by
    show xs.foldl min x ≤ j
    rcases List.mem_cons.mp hj with rfl | hj'
    · exact (foldl_min_le xs j).1
    · exact (foldl_min_le xs x).2 j hj'

/-- A fold preserves any invariant its step preserves. -/
theorem foldl_preserve {α β : Type} (P : β → Prop) (f : β → α → β)
    (hf : ∀ b a, P b → P (f b a)) : ∀ (l : List α) (b : β), P b → P (l.foldl f b)
  | [], _, hb => hb
  | a :: l, b, hb => foldl_preserve P f hf l (f b a) (hf b a hb)

/-- The cluster-acceptance step keeps the accepted clusters covered by the
processed-id list and pairwise disjoint. -/
theorem acceptStep_invariant (acc2 : List (List Nat) × List Nat) (cluster : List Nat)
    (h : (∀ cl ∈ acc2.1, ∀ i ∈ cl, i ∈ acc2.2) ∧
      acc2.1.Pairwise (fun c1 c2 => ∀ i ∈ c1, i ∉ c2)) :
    (∀ cl ∈ (if 1 < cluster.length && cluster.all (fun i => !acc2.2.contains i)
        then (acc2.1 ++ [cluster], acc2.2 ++ cluster) else acc2).1, ∀ i ∈ cl,
      i ∈ (if 1 < cluster.length && cluster.all (fun i => !acc2.2.contains i)
        then (acc2.1 ++ [cluster], acc2.2 ++ cluster) else acc2).2) ∧
    (if 1 < cluster.length && cluster.all (fun i => !acc2.2.contains i)
        then (acc2.1 ++ [cluster], acc2.2 ++ cluster) else acc2).1.Pairwise
      (fun c1 c2 => ∀ i ∈ c1, i ∉ c2) := by
  by_cases hc : (1 < cluster.length && cluster.all (fun i => !acc2.2.contains i)) = true
  · rw [if_pos hc]
    have hdisj : ∀ i ∈ cluster, i ∉ acc2.2 := by
      intro i hi
      have := (Bool.and_eq_true .. ▸ hc).2
      have := List.all_eq_true.mp this i hi
      simpa using this
    constructor
    · intro cl hcl i hi
      rcases List.mem_append.mp hcl with h1 | h1
      · exact List.mem_append_left _ (h.1 cl h1 i hi)
      · have : cl = cluster := by simpa using h1
        subst this
        exact List.mem_append_right _ hi
    · rw [List.pairwise_append]
      refine ⟨h.2, List.pairwise_singleton _ _, ?_⟩
      intro c1 h1 c2 h2 i hi1
      have : c2 = cluster := by simpa using h2
      subst this
      intro hi2
      exact hdisj i hi2 (h.1 c1 h1 i hi1)
  · rw [if_neg hc]
    exact h

/-- The whole cluster-collection fold keeps the accepted clusters covered by
the processed ids and pairwise disjoint. -/
theorem collectClusters_invariant (tsr : List Char → List Char → ℚ)
    (blocks : List ((Int × List Char) × List PubRecord)) :
    (∀ cl ∈ (collectClusters tsr blocks).1, ∀ i ∈ cl,
      i ∈ (collectClusters tsr blocks).2) ∧
    (collectClusters tsr blocks).1.Pairwise (fun c1 c2 => ∀ i ∈ c1, i ∉ c2) := by
  unfold collectClusters
  apply foldl_preserve
    (fun st : List (List Nat) × List Nat =>
      (∀ cl ∈ st.1, ∀ i ∈ cl, i ∈ st.2) ∧
        st.1.Pairwise (fun c1 c2 => ∀ i ∈ c1, i ∉ c2))
  · intro b kb hb
    by_cases h2 : kb.2.length < 2
    · rw [if_pos h2]; exact hb
    · rw [if_neg h2]
      by_cases h3 : (uniqueById kb.2).length < 2
      · simp only [h3, if_true]; exact hb
      · simp only [h3, if_false]
        exact foldl_preserve
          (fun st : List (List Nat) × List Nat =>
            (∀ cl ∈ st.1, ∀ i ∈ cl, i ∈ st.2) ∧
              st.1.Pairwise (fun c1 c2 => ∀ i ∈ c1, i ∉ c2))
          _ (fun b2 cluster hb2 => acceptStep_invariant b2 cluster hb2) _ b hb
  · exact ⟨fun cl hcl => absurd hcl (List.not_mem_nil _), List.Pairwise.nil⟩

/-- On pairwise-disjoint clusters, the first cluster containing `i` is the
(unique) one. -/
theorem find?_containing :
    ∀ (cls : List (List Nat)), cls.Pairwise (fun c1 c2 => ∀ i ∈ c1, i ∉ c2) →
      ∀ cl ∈ cls, ∀ i ∈ cl, cls.find? (fun c => c.contains i) = some cl
  | [], _, cl, hcl, _, _ => absurd hcl (List.not_mem_nil _)
  | c0 :: rest, hpw, cl, hcl, i, hi => by
    rcases List.mem_cons.mp hcl with rfl | hcl'
    · exact List.find?_cons_of_pos _ (by simpa using hi)
    · have hdisj : ∀ x ∈ c0, x ∉ cl := (List.pairwise_cons.mp hpw).1 cl hcl'
      have hni : i ∉ c0 := fun hic0 => hdisj i hic0 hi
      rw [List.find?_cons_of_neg _ (by simpa using hni)]
      exact find?_containing rest (List.pairwise_cons.mp hpw).2 cl hcl' i hi

/-- C8 (amended): the canonical record of every duplicate cluster is simply
the one with the lowest id — `deduplicate` assigns `min(cluster)`, making
selection deterministic, but completeness (non-null fields, string lengths)
is never consulted; see the counterexample.  Every member of a cluster maps
to the cluster's least id, which is itself a member. -/
theorem C8_canonical_is_lowest_id (tsr : List Char → List Char → ℚ)
    (records : List PubRecord) (cl : List Nat) (i : Nat)
    (hcl : cl ∈ all_clusters tsr records) (hi : i ∈ cl) :
    canonicalMap tsr records i = clusterMin cl ∧ clusterMin cl ∈ cl ∧
      ∀ j ∈ cl, clusterMin cl ≤ j := by
  have hpw := (collectClusters_invariant tsr (buildBlocks records)).2
  refine ⟨?_, clusterMin_mem cl ?_, clusterMin_le cl⟩
  · unfold canonicalMap
    rw [find?_containing (all_clusters tsr records) hpw cl hcl i hi]
  · rintro rfl
    exact absurd hi (List.not_mem_nil _)

/-- Witness for the amended C8 at a concrete two-record cluster. -/
theorem C8_canonical_is_lowest_id_witness :
    canonicalMap jaccardSim
      [⟨1, "titulus unus verba".data, none, some 1500⟩,
       ⟨2, "titulus unus verba".data, some "auctor quidam".data, some 1500⟩] 2 =
      clusterMin [1, 2] ∧ clusterMin [1, 2] ∈ [1, 2] ∧
      ∀ j ∈ [1, 2], clusterMin [1, 2] ≤ j :=
  C8_canonical_is_lowest_id jaccardSim
    [⟨1, "titulus unus verba".data, none, some 1500⟩,
     ⟨2, "titulus unus verba".data, some "auctor quidam".data, some 1500⟩]
    [1, 2] 2 (by decide) (by decide)

/-- C10 (counterexample to the claim as stated): all three normalizers keep
the underscore, a punctuation character (Python's `\w` class counts it as a
word character and the punctuation substitution spares it). -/
theorem C10_underscore_retained_counterexample :
    normalize_title "a_b".data = "a_b".data ∧
    agent_normalize_text "a_b".data = "a_b".data ∧
    dd_normalize_text "a_b".data = "a_b".data ∧
    '_' ∈ normalize_title "a_b".data ∧ '_' ∈ pyPunctuation := by
  decide

/-- Lowercasing is idempotent character by character. -/
theorem pyLowerChar_idem (c : Char) : pyLowerChar (pyLowerChar c) = pyLowerChar c := by
  have key : ∀ d, lowerTable.find? (fun p => p.1 == d) = none → pyLowerChar d = d := by
    intro d h
    unfold pyLowerChar
    rw [h]
    rfl
  have key2 : ∀ p ∈ lowerTable, pyLowerChar p.2 = p.2 := by decide
  cases hf : lowerTable.find? (fun p => p.1 == c) with
  | none => rw [key c hf, key c hf]
  | some p =>
    have hp : p ∈ lowerTable := List.mem_of_find?_eq_some hf
    have he : pyLowerChar c = p.2 := by unfold pyLowerChar; rw [hf]; rfl
    rw [he]
    exact key2 p hp

/-- Lowercasing never produces an uppercase ligature. -/
theorem pyLowerChar_ne_ligature (c : Char) :
    pyLowerChar c ≠ 'Æ' ∧ pyLowerChar c ≠ 'Œ' := by
  cases hf : lowerTable.find? (fun p => p.1 == c) with
  | none =>
    have he : pyLowerChar c = c := by unfold pyLowerChar; rw [hf]; rfl
    have hall := List.find?_eq_none.mp hf
    rw [he]
    constructor
    · intro hc
      have hx := hall ('Æ', 'æ') (by decide)
      simp [hc] at hx
    · intro hc
      have hx := hall ('Œ', 'œ') (by decide)
      simp [hc] at hx
  | some p =>
    have hp : p ∈ lowerTable := List.mem_of_find?_eq_some hf
    have he : pyLowerChar c = p.2 := by unfold pyLowerChar; rw [hf]; rfl
    rw [he]
    have hx : ∀ q ∈ lowerTable, q.2 ≠ 'Æ' ∧ q.2 ≠ 'Œ' := by decide
    exact hx p hp

/-- A whitespace character of the model is one of the four listed. -/
theorem pySpace_cases {c : Char} (h : pySpace c = true) :
    c = ' ' ∨ c = '\t' ∨ c = '\n' ∨ c = '\r' := by
  simp [pySpace] at h
  tauto

/-- Every token `str.split()` yields is non-empty and whitespace-free. -/
theorem pyWordsAux_tokens :
    ∀ (l acc : List Char), (∀ c ∈ acc, pySpace c = false) →
      ∀ t ∈ pyWordsAux acc l, t ≠ [] ∧ ∀ c ∈ t, pySpace c = false
  | [], acc, hacc, t, ht => by
    unfold pyWordsAux at ht
    split at ht
    · exact absurd ht (List.not_mem_nil _)
    · have he : t = acc.reverse := by simpa using ht
      subst he
      refine ⟨fun hv => ?_, fun c hc => hacc c (List.mem_reverse.mp hc)⟩
      have : acc = [] := by simpa using congrArg List.reverse hv
      simp [this] at *
  | c :: cs, acc, hacc, t, ht => by
    unfold pyWordsAux at ht
    by_cases hc : pySpace c = true
    · rw [if_pos hc] at ht
      split at ht
      · exact pyWordsAux_tokens cs [] (by intro d hd; exact absurd hd (List.not_mem_nil _)) t ht
      · rcases List.mem_cons.mp ht with rfl | ht'
        · refine ⟨fun hv => ?_, fun d hd => hacc d (List.mem_reverse.mp hd)⟩
          have : acc = [] := by simpa using congrArg List.reverse hv
          simp [this] at *
        · exact pyWordsAux_tokens cs []
            (by intro d hd; exact absurd hd (List.not_mem_nil _)) t ht'
    · rw [if_neg hc] at ht
      refine pyWordsAux_tokens cs (c :: acc) ?_ t ht
      intro d hd
      rcases List.mem_cons.mp hd with rfl | hd'
      · exact Bool.not_eq_true _ ▸ (by simpa using hc)
      · exact hacc d hd'

/-- Every character of a token comes from the split input or the
accumulator. -/
theorem pyWordsAux_tokens_chars :
    ∀ (l acc : List Char), ∀ t ∈ pyWordsAux acc l, ∀ c ∈ t, c ∈ l ∨ c ∈ acc
  | [], acc, t, ht, c, hc => by
    unfold pyWordsAux at ht
    split at ht
    · exact absurd ht (List.not_mem_nil _)
    · have he : t = acc.reverse := by simpa using ht
      subst he
      exact Or.inr (List.mem_reverse.mp hc)
  | d :: cs, acc, t, ht, c, hc => by
    unfold pyWordsAux at ht
    by_cases hd : pySpace d = true
    · rw [if_pos hd] at ht
      split at ht
      · rcases pyWordsAux_tokens_chars cs [] t ht c hc with h | h
        · exact Or.inl (List.mem_cons_of_mem _ h)
        · exact absurd h (List.not_mem_nil _)
      · rcases List.mem_cons.mp ht with rfl | ht'
        · exact Or.inr (List.mem_reverse.mp hc)
        · rcases pyWordsAux_tokens_chars cs [] t ht' c hc with h | h
          · exact Or.inl (List.mem_cons_of_mem _ h)
          · exact absurd h (List.not_mem_nil _)
    · rw [if_neg hd] at ht
      rcases pyWordsAux_tokens_chars cs (d :: acc) t ht c hc with h | h
      · exact Or.inl (List.mem_cons_of_mem _ h)
      · rcases List.mem_cons.mp h with rfl | h'
        · exact Or.inl (List.mem_cons_self _ _)
        · exact Or.inr h'

/-- Splitting consumes a whitespace-free token wholesale. -/
theorem pyWordsAux_token_append :
    ∀ (t : List Char), (∀ c ∈ t, pySpace c = false) →
      ∀ (rest acc : List Char), pyWordsAux acc (t ++ rest) = pyWordsAux (t.reverse ++ acc) rest
  | [], _, rest, acc => by simp
  | c :: t, h, rest, acc => by
    have hc : ¬ pySpace c = true := by
      rw [h c (List.mem_cons_self _ _)]
      exact Bool.false_ne_true
    show pyWordsAux acc (c :: (t ++ rest)) = _
    rw [show pyWordsAux acc (c :: (t ++ rest)) = pyWordsAux (c :: acc) (t ++ rest) by
      simp only [pyWordsAux]; rw [if_neg hc]]
    rw [pyWordsAux_token_append t (fun d hd => h d (List.mem_cons_of_mem _ hd)) rest (c :: acc)]
    simp

/-- Splitting a space-joined list of good tokens recovers the tokens. -/
theorem pyWords_joinWords :
    ∀ (ts : List (List Char)), (∀ t ∈ ts, t ≠ [] ∧ ∀ c ∈ t, pySpace c = false) →
      pyWords (joinWords ts) = ts
  | [], _ => rfl
  | [t], h => by
    obtain ⟨hne, hns⟩ := h t (List.mem_cons_self _ _)
    show pyWordsAux [] (joinWords [t]) = [t]
    rw [show joinWords [t] = t ++ [] by simp [joinWords]]
    rw [pyWordsAux_token_append t hns [] []]
    show (if (t.reverse ++ []).isEmpty then [] else [(t.reverse ++ []).reverse]) = [t]
    rw [if_neg (by simpa using hne)]
    simp
  | t :: t2 :: ts, h => by
    obtain ⟨hne, hns⟩ := h t (List.mem_cons_self _ _)
    show pyWordsAux [] (joinWords (t :: t2 :: ts)) = t :: t2 :: ts
    rw [show joinWords (t :: t2 :: ts) = t ++ ' ' :: joinWords (t2 :: ts) from rfl]
    rw [pyWordsAux_token_append t hns _ []]
    rw [show pyWordsAux (t.reverse ++ []) (' ' :: joinWords (t2 :: ts)) =
        (t.reverse ++ []).reverse :: pyWordsAux [] (joinWords (t2 :: ts)) by
      simp only [pyWordsAux]
      rw [if_pos (by decide : pySpace ' ' = true)]
      rw [if_neg (by simpa using hne)]]
    have ih := pyWords_joinWords (t2 :: ts) (fun u hu => h u (List.mem_cons_of_mem _ hu))
    unfold pyWords at ih
    rw [ih]
    simp

/-- The ligature replacement distributes over append. -/
theorem replaceLigatures_append (a b : List Char) :
    replaceLigatures (a ++ b) = replaceLigatures a ++ replaceLigatures b := by
  unfold replaceLigatures
  exact List.flatMap_append ..

/-- The ligature replacement commutes with joining: spaces are untouched. -/
theorem replaceLigatures_joinWords :
    ∀ (ts : List (List Char)),
      replaceLigatures (joinWords ts) = joinWords (ts.map replaceLigatures)
  | [] => rfl
  | [t] => rfl
  | t :: t2 :: ts => by
    rw [show joinWords (t :: t2 :: ts) = t ++ ' ' :: joinWords (t2 :: ts) from rfl]
    rw [replaceLigatures_append]
    rw [show replaceLigatures (' ' :: joinWords (t2 :: ts)) =
        ' ' :: replaceLigatures (joinWords (t2 :: ts)) from rfl]
    rw [replaceLigatures_joinWords (t2 :: ts)]
    rfl

/-- Where the characters of a ligature replacement come from. -/
theorem replaceLigatures_chars :
    ∀ (l : List Char) (c : Char), c ∈ replaceLigatures l →
      (c ∈ l ∧ c ≠ 'æ' ∧ c ≠ 'œ') ∨ c = 'a' ∨ c = 'e' ∨ c = 'o'
  | [], _, hc => absurd hc (List.not_mem_nil _)
  | d :: l, c, hc => by
    unfold replaceLigatures at hc
    rw [List.flatMap_cons] at hc
    rcases List.mem_append.mp hc with h1 | h1
    · by_cases hd1 : d = 'æ'
      · right
        have hm : c ∈ ['a', 'e'] := by simpa [hd1] using h1
        simp at hm
        tauto
      · by_cases hd2 : d = 'œ'
        · right
          have hm : c ∈ ['o', 'e'] := by simpa [hd1, hd2] using h1
          simp at hm
          tauto
        · left
          have : c = d := by simpa [hd1, hd2] using h1
          subst this
          exact ⟨List.mem_cons_self _ _, hd1, hd2⟩
    · rcases replaceLigatures_chars l c h1 with ⟨h2, h3⟩ | h2
      · exact Or.inl ⟨List.mem_cons_of_mem _ h2, h3⟩
      · exact Or.inr h2

/-- Ligature replacement keeps tokens non-empty. -/
theorem replaceLigatures_ne_nil :
    ∀ (l : List Char), l ≠ [] → replaceLigatures l ≠ []
  | [], h => absurd rfl h
  | d :: l, _ => by
    unfold replaceLigatures
    rw [List.flatMap_cons]
    by_cases hd1 : d = 'æ' <;> by_cases hd2 : d = 'œ' <;> simp [hd1, hd2]

/-- Replacing ligatures on a ligature-free list is the identity. -/
theorem replaceLigatures_id :
    ∀ (l : List Char), (∀ c ∈ l, c ≠ 'æ' ∧ c ≠ 'œ') → replaceLigatures l = l
  | [], _ => rfl
  | d :: l, h => by
    obtain ⟨h1, h2⟩ := h d (List.mem_cons_self _ _)
    unfold replaceLigatures
    rw [List.flatMap_cons]
    rw [if_neg (by simpa using h1), if_neg (by simpa using h2)]
    have ih := replaceLigatures_id l (fun c hc => h c (List.mem_cons_of_mem _ hc))
    unfold replaceLigatures at ih
    rw [ih]
    rfl

/-- Where the characters of the unidecode transliteration come from, when the
input has no uppercase ligatures. -/
theorem ddUnidecode_chars :
    ∀ (l : List Char), (∀ c ∈ l, c ≠ 'Æ' ∧ c ≠ 'Œ') →
      ∀ c ∈ ddUnidecode l,
        (c ∈ l ∧ c ≠ 'æ' ∧ c ≠ 'œ' ∧ c ≠ 'Æ' ∧ c ≠ 'Œ') ∨ c = 'a' ∨ c = 'e' ∨ c = 'o'
  | [], _, _, hc => absurd hc (List.not_mem_nil _)
  | d :: l, hlig, c, hc => by
    obtain ⟨hgA, hgO⟩ := hlig d (List.mem_cons_self _ _)
    unfold ddUnidecode at hc
    rw [List.flatMap_cons] at hc
    rcases List.mem_append.mp hc with h1 | h1
    · by_cases hd1 : d = 'æ'
      · right
        have hm : c ∈ ['a', 'e'] := by simpa [hd1] using h1
        simp at hm
        tauto
      · by_cases hd2 : d = 'œ'
        · right
          have hm : c ∈ ['o', 'e'] := by simpa [hd1, hd2] using h1
          simp at hm
          tauto
        · left
          have : c = d := by simpa [hd1, hd2, hgA, hgO] using h1
          subst this
          exact ⟨List.mem_cons_self _ _, hd1, hd2, hgA, hgO⟩
    · rcases ddUnidecode_chars l (fun x hx => hlig x (List.mem_cons_of_mem _ hx)) c h1 with
        ⟨h2, h3⟩ | h2
      · exact Or.inl ⟨List.mem_cons_of_mem _ h2, h3⟩
      · exact Or.inr h2

/-- Unidecode on a ligature-free list is the identity. -/
theorem ddUnidecode_id :
    ∀ (l : List Char), (∀ c ∈ l, c ≠ 'æ' ∧ c ≠ 'œ' ∧ c ≠ 'Æ' ∧ c ≠ 'Œ') →
      ddUnidecode l = l
  | [], _ => rfl
  | d :: l, h => by
    obtain ⟨h1, h2, h3, h4⟩ := h d (List.mem_cons_self _ _)
    unfold ddUnidecode
    rw [List.flatMap_cons]
    rw [if_neg (by simpa using h1), if_neg (by simpa using h2),
      if_neg (by simpa using h3), if_neg (by simpa using h4)]
    have ih := ddUnidecode_id l (fun c hc => h c (List.mem_cons_of_mem _ hc))
    unfold ddUnidecode at ih
    rw [ih]
    rfl

/-- A pointwise-fixed map is the identity. -/
theorem listMapId {f : Char → Char} :
    ∀ (l : List Char), (∀ c ∈ l, f c = c) → l.map f = l
  | [], _ => rfl
  | c :: l, h => by
    rw [List.map_cons, h c (List.mem_cons_self _ _),
      listMapId l (fun d hd => h d (List.mem_cons_of_mem _ hd))]

/-- The punctuation substitution is the identity on word-or-space
characters. -/
theorem pySubPunct_id (l : List Char)
    (h : ∀ c ∈ l, (pyWordChar c || pySpace c) = true) : pySubPunct l = l := by
  unfold pySubPunct
  exact listMapId l (fun c hc => by rw [if_pos (h c hc)])

/-- Characters of the punctuation substitution: spaces or word-or-space
characters of the input. -/
theorem pySubPunct_chars (l : List Char) (c : Char) (hc : c ∈ pySubPunct l) :
    (c ∈ l ∧ (pyWordChar c || pySpace c) = true) ∨ c = ' ' := by
  unfold pySubPunct at hc
  obtain ⟨d, hd, he⟩ := List.mem_map.mp hc
  by_cases hw : (pyWordChar d || pySpace d) = true
  · rw [if_pos hw] at he
    exact Or.inl ⟨he ▸ hd, he ▸ hw⟩
  · rw [if_neg hw] at he
    exact Or.inr he.symm

/-- The head of a list is a member. -/
theorem head?_mem {α : Type} : ∀ {l : List α} {a : α}, l.head? = some a → a ∈ l
  | [], _, h => by simp at h
  | b :: l, a, h => by
    have : a = b := by simpa using h.symm
    exact this ▸ List.mem_cons_self _ _

/-- The last element of a list is a member. -/
theorem getLast?_mem {α : Type} {l : List α} {a : α} (h : l.getLast? = some a) : a ∈ l := by
  have hh : l.reverse.head? = some a := by rw [List.head?_reverse]; exact h
  exact List.mem_reverse.mp (head?_mem hh)

/-- The characters of a joined token list: spaces or token characters. -/
theorem joinWords_chars :
    ∀ (ts : List (List Char)) (c : Char), c ∈ joinWords ts → c = ' ' ∨ ∃ t ∈ ts, c ∈ t
  | [], _, hc => absurd hc (List.not_mem_nil _)
  | [t], c, hc => Or.inr ⟨t, List.mem_cons_self _ _, hc⟩
  | t :: t2 :: ts, c, hc => by
    rw [show joinWords (t :: t2 :: ts) = t ++ ' ' :: joinWords (t2 :: ts) from rfl] at hc
    rcases List.mem_append.mp hc with h | h
    · exact Or.inr ⟨t, List.mem_cons_self _ _, h⟩
    · rcases List.mem_cons.mp h with rfl | h'
      · exact Or.inl rfl
      · rcases joinWords_chars (t2 :: ts) c h' with h2 | ⟨u, hu, hcu⟩
        · exact Or.inl h2
        · exact Or.inr ⟨u, List.mem_cons_of_mem _ hu, hcu⟩

/-- A join of good tokens is non-empty when the token list is. -/
theorem joinWords_ne_nil :
    ∀ (ts : List (List Char)) (t0 : List Char), ts.head? = some t0 → t0 ≠ [] →
      joinWords ts ≠ []
  | [], _, h, _ => by simp at h
  | [t], t0, h, hne => by
    have : t0 = t := by simpa using h.symm
    subst this
    simpa [joinWords] using hne
  | t :: t2 :: ts, t0, h, hne => by
    have : t0 = t := by simpa using h.symm
    subst this
    rw [show joinWords (t0 :: t2 :: ts) = t0 ++ ' ' :: joinWords (t2 :: ts) from rfl]
    simp

/-- The head of a join of good tokens is not whitespace. -/
theorem joinWords_head :
    ∀ (ts : List (List Char)), (∀ t ∈ ts, t ≠ [] ∧ ∀ c ∈ t, pySpace c = false) →
      ∀ d, (joinWords ts).head? = some d → pySpace d = false
  | [], _, d, h => by simp [joinWords] at h
  | [t], hg, d, h => by
    obtain ⟨-, hns⟩ := hg t (List.mem_cons_self _ _)
    exact hns d (head?_mem (by simpa [joinWords] using h))
  | t :: t2 :: ts, hg, d, h => by
    obtain ⟨hne, hns⟩ := hg t (List.mem_cons_self _ _)
    rw [show joinWords (t :: t2 :: ts) = t ++ ' ' :: joinWords (t2 :: ts) from rfl] at h
    rw [List.head?_append] at h
    cases ht : t.head? with
    | none => exact absurd (List.head?_eq_none_iff.mp ht) hne
    | some d0 =>
      rw [ht] at h
      have : d = d0 := by simpa using h.symm
      subst this
      exact hns d (head?_mem ht)

/-- The last character of a join of good tokens is not whitespace. -/
theorem joinWords_getLast :
    ∀ (ts : List (List Char)), (∀ t ∈ ts, t ≠ [] ∧ ∀ c ∈ t, pySpace c = false) →
      ∀ d, (joinWords ts).getLast? = some d → pySpace d = false
  | [], _, d, h => by simp [joinWords] at h
  | [t], hg, d, h => by
    obtain ⟨-, hns⟩ := hg t (List.mem_cons_self _ _)
    exact hns d (getLast?_mem (by simpa [joinWords] using h))
  | t :: t2 :: ts, hg, d, h => by
    obtain ⟨hne2, -⟩ := hg t2 (List.mem_cons_of_mem _ (List.mem_cons_self _ _))
    rw [show joinWords (t :: t2 :: ts) = t ++ ' ' :: joinWords (t2 :: ts) from rfl] at h
    rw [List.getLast?_append] at h
    have hjn : joinWords (t2 :: ts) ≠ [] := joinWords_ne_nil (t2 :: ts) t2 rfl hne2
    cases hj : (joinWords (t2 :: ts)).getLast? with
    | none => exact absurd (List.getLast?_eq_none_iff.mp hj) hjn
    | some d0 =>
      have hcons : (' ' :: joinWords (t2 :: ts)).getLast? = some d0 := by
        rw [show (' ' :: joinWords (t2 :: ts)) = [' '] ++ joinWords (t2 :: ts) from rfl,
          List.getLast?_append, hj]
        rfl
      rw [hcons] at h
      have : d = d0 := by simpa using h.symm
      subst this
      exact joinWords_getLast (t2 :: ts)
        (fun u hu => hg u (List.mem_cons_of_mem _ hu)) d hj

/-- A whitespace-free list has no adjacent whitespace pair. -/
theorem chain'_of_nonspace :
    ∀ (l : List Char), (∀ c ∈ l, pySpace c = false) →
      List.Chain' (fun a b => ¬(pySpace a = true ∧ pySpace b = true)) l
  | [], _ => List.chain'_nil
  | c :: l, h => by
    rw [List.chain'_cons']
    refine ⟨?_, chain'_of_nonspace l (fun d hd => h d (List.mem_cons_of_mem _ hd))⟩
    intro y _
    rintro ⟨ha, -⟩
    rw [h c (List.mem_cons_self _ _)] at ha
    exact Bool.false_ne_true ha

/-- A join of good tokens has no adjacent whitespace pair. -/
theorem joinWords_chain' :
    ∀ (ts : List (List Char)), (∀ t ∈ ts, t ≠ [] ∧ ∀ c ∈ t, pySpace c = false) →
      List.Chain' (fun a b => ¬(pySpace a = true ∧ pySpace b = true)) (joinWords ts)
  | [], _ => List.chain'_nil
  | [t], hg => chain'_of_nonspace t (hg t (List.mem_cons_self _ _)).2
  | t :: t2 :: ts, hg => by
    obtain ⟨hne, hns⟩ := hg t (List.mem_cons_self _ _)
    rw [show joinWords (t :: t2 :: ts) = t ++ ' ' :: joinWords (t2 :: ts) from rfl]
    rw [List.chain'_append]
    refine ⟨chain'_of_nonspace t hns, ?_, ?_⟩
    · rw [List.chain'_cons']
      refine ⟨?_, joinWords_chain' (t2 :: ts) (fun u hu => hg u (List.mem_cons_of_mem _ hu))⟩
      intro y hy
      rintro ⟨-, hb⟩
      rw [joinWords_head (t2 :: ts) (fun u hu => hg u (List.mem_cons_of_mem _ hu)) y hy] at hb
      exact Bool.false_ne_true hb
    · intro x hx y hy
      rintro ⟨ha, -⟩
      have hxt : x ∈ t := getLast?_mem (by simpa using hx)
      rw [hns x hxt] at ha
      exact Bool.false_ne_true ha

/-- The tokens underlying `normalize_title` are good (non-empty,
whitespace-free). -/
theorem normalize_title_tokens (l : List Char) :
    ∀ t' ∈ (pyWords (pySubPunct (l.map pyLowerChar))).map replaceLigatures,
      t' ≠ [] ∧ ∀ c ∈ t', pySpace c = false := by
  intro t' ht'
  obtain ⟨t, ht, rfl⟩ := List.mem_map.mp ht'
  obtain ⟨hne, hns⟩ := pyWordsAux_tokens (pySubPunct (l.map pyLowerChar)) []
    (by intro d hd; exact absurd hd (List.not_mem_nil _)) t ht
  refine ⟨replaceLigatures_ne_nil t hne, ?_⟩
  intro c hc
  rcases replaceLigatures_chars t c hc with ⟨h1, -⟩ | h1
  · exact hns c h1
  · rcases h1 with rfl | rfl | rfl <;> decide

/-- `normalize_title` is the join of its (ligature-replaced) tokens. -/
theorem normalize_title_shape (l : List Char) :
    normalize_title l =
      joinWords ((pyWords (pySubPunct (l.map pyLowerChar))).map replaceLigatures) := by
  unfold normalize_title
  exact replaceLigatures_joinWords _

/-- Character facts about `normalize_title` output: lowercase-fixed,
word-or-space, only plain spaces, ligature-free. -/
theorem normalize_title_chars (l : List Char) (c : Char) (hc : c ∈ normalize_title l) :
    pyLowerChar c = c ∧ (pyWordChar c || pySpace c) = true ∧
      (pySpace c = true → c = ' ') ∧ c ≠ 'æ' ∧ c ≠ 'œ' := by
  rw [normalize_title_shape] at hc
  rcases joinWords_chars _ c hc with rfl | ⟨t', ht', hct⟩
  · refine ⟨by decide, by decide, fun _ => rfl, by decide, by decide⟩
  · obtain ⟨t, ht, rfl⟩ := List.mem_map.mp ht'
    obtain ⟨-, hns⟩ := pyWordsAux_tokens (pySubPunct (l.map pyLowerChar)) []
      (by intro d hd; exact absurd hd (List.not_mem_nil _)) t ht
    have hnsp : pySpace c = false := by
      rcases replaceLigatures_chars t c hct with ⟨h1, -⟩ | h1
      · exact hns c h1
      · rcases h1 with rfl | rfl | rfl <;> decide
    rcases replaceLigatures_chars t c hct with ⟨h1, hne1, hne2⟩ | h1
    · have hsub : c ∈ pySubPunct (l.map pyLowerChar) := by
        rcases pyWordsAux_tokens_chars (pySubPunct (l.map pyLowerChar)) [] t ht c h1 with
          h | h
        · exact h
        · exact absurd h (List.not_mem_nil _)
      rcases pySubPunct_chars _ c hsub with ⟨hin, hword⟩ | he
      · obtain ⟨d, -, rfl⟩ := List.mem_map.mp hin
        exact ⟨pyLowerChar_idem d, hword,
          fun hs => absurd hs (by rw [hnsp]; exact Bool.false_ne_true), hne1, hne2⟩
      · subst he
        exact absurd hnsp (by decide)
    · rcases h1 with rfl | rfl | rfl <;> decide

/-- The tokens underlying `agent_normalize_text` are good. -/
theorem agent_tokens (l : List Char) :
    ∀ t ∈ pyWords (pySubPunct (replaceLigatures (pyNFKD (l.map pyLowerChar)))),
      t ≠ [] ∧ ∀ c ∈ t, pySpace c = false :=
  fun t ht => pyWordsAux_tokens _ []
    (by intro d hd; exact absurd hd (List.not_mem_nil _)) t ht

/-- Character facts about `agent_normalize_text` output. -/
theorem agent_normalize_text_chars (l : List Char) (c : Char)
    (hc : c ∈ agent_normalize_text l) :
    pyLowerChar c = c ∧ (pyWordChar c || pySpace c) = true ∧
      (pySpace c = true → c = ' ') ∧ c ≠ 'æ' ∧ c ≠ 'œ' := by
  unfold agent_normalize_text at hc
  rcases joinWords_chars _ c hc with rfl | ⟨t, ht, hct⟩
  · exact ⟨by decide, by decide, fun _ => rfl, by decide, by decide⟩
  · obtain ⟨-, hns⟩ := agent_tokens l t ht
    have hnsp : pySpace c = false := hns c hct
    have hsub : c ∈ pySubPunct (replaceLigatures (pyNFKD (l.map pyLowerChar))) := by
      rcases pyWordsAux_tokens_chars _ [] t ht c hct with h | h
      · exact h
      · exact absurd h (List.not_mem_nil _)
    rcases pySubPunct_chars _ c hsub with ⟨hin, hword⟩ | he
    · rcases replaceLigatures_chars _ c hin with ⟨h1, hne1, hne2⟩ | h1
      · obtain ⟨d, -, rfl⟩ := List.mem_map.mp (show c ∈ l.map pyLowerChar from h1)
        exact ⟨pyLowerChar_idem d, hword,
          fun hs => absurd hs (by rw [hnsp]; exact Bool.false_ne_true), hne1, hne2⟩
      · rcases h1 with rfl | rfl | rfl <;> decide
    · subst he
      rw [show pySpace ' ' = true from rfl] at hnsp
      simp at hnsp

/-- C10 helper: `normalize_title` is idempotent. -/
theorem normalize_title_idem (l : List Char) :
    normalize_title (normalize_title l) = normalize_title l := by
  have hfix : (normalize_title l).map pyLowerChar = normalize_title l :=
    listMapId _ (fun c hc => (normalize_title_chars l c hc).1)
  have hword : pySubPunct (normalize_title l) = normalize_title l :=
    pySubPunct_id _ (fun c hc => (normalize_title_chars l c hc).2.1)
  have hrep : replaceLigatures (normalize_title l) = normalize_title l :=
    replaceLigatures_id _ (fun c hc =>
      ⟨(normalize_title_chars l c hc).2.2.2.1, (normalize_title_chars l c hc).2.2.2.2⟩)
  show replaceLigatures (joinWords (pyWords (pySubPunct
    ((normalize_title l).map pyLowerChar)))) = normalize_title l
  rw [hfix, hword]
  conv_lhs => rw [normalize_title_shape l]
  rw [pyWords_joinWords _ (normalize_title_tokens l)]
  rw [← normalize_title_shape l]
  exact hrep

/-- C10 helper: `agent_normalize_text` is idempotent. -/
theorem agent_normalize_text_idem (l : List Char) :
    agent_normalize_text (agent_normalize_text l) = agent_normalize_text l := by
  have hfix : (agent_normalize_text l).map pyLowerChar = agent_normalize_text l :=
    listMapId _ (fun c hc => (agent_normalize_text_chars l c hc).1)
  have hword : pySubPunct (agent_normalize_text l) = agent_normalize_text l :=
    pySubPunct_id _ (fun c hc => (agent_normalize_text_chars l c hc).2.1)
  have hrep : replaceLigatures (agent_normalize_text l) = agent_normalize_text l :=
    replaceLigatures_id _ (fun c hc =>
      ⟨(agent_normalize_text_chars l c hc).2.2.2.1,
       (agent_normalize_text_chars l c hc).2.2.2.2⟩)
  show joinWords (pyWords (pySubPunct (replaceLigatures (pyNFKD
    ((agent_normalize_text l).map pyLowerChar))))) = agent_normalize_text l
  rw [show pyNFKD ((agent_normalize_text l).map pyLowerChar) =
    (agent_normalize_text l).map pyLowerChar from rfl]
  rw [hfix, hrep, hword]
  conv_lhs => rw [show agent_normalize_text l = joinWords (pyWords (pySubPunct
    (replaceLigatures (pyNFKD (l.map pyLowerChar))))) from rfl]
  rw [pyWords_joinWords _ (agent_tokens l)]
  rfl

/-- Right after a space was emitted, the collapsed output starts with a
non-whitespace character. -/
theorem collapseWsAux_true_head :
    ∀ (l : List Char) (d : Char), (collapseWsAux true l).head? = some d → pySpace d = false
  | [], d, h => by simp [collapseWsAux] at h
  | c :: cs, d, h => by
    simp only [collapseWsAux] at h
    by_cases hc : pySpace c = true
    · rw [if_pos hc] at h
      simp only [if_true] at h
      exact collapseWsAux_true_head cs d h
    · rw [if_neg hc] at h
      have : d = c := by simpa using h.symm
      subst this
      simpa using hc

/-- On a list with a non-whitespace head the flag does not matter. -/
theorem collapseWsAux_true_eq_false :
    ∀ (l : List Char), (∀ d, l.head? = some d → pySpace d = false) →
      collapseWsAux true l = collapseWsAux false l
  | [], _ => rfl
  | c :: cs, h => by
    have hc : pySpace c = false := h c rfl
    simp only [collapseWsAux]
    rw [if_neg (by rw [hc]; exact Bool.false_ne_true),
      if_neg (by rw [hc]; exact Bool.false_ne_true)]

/-- Characters of the collapsed output: plain spaces or non-whitespace input
characters. -/
theorem collapseWsAux_chars :
    ∀ (l : List Char) (b : Bool) (c : Char), c ∈ collapseWsAux b l →
      c = ' ' ∨ (c ∈ l ∧ pySpace c = false)
  | [], _, _, hc => absurd hc (List.not_mem_nil _)
  | d :: cs, b, c, hc => by
    simp only [collapseWsAux] at hc
    by_cases hd : pySpace d = true
    · rw [if_pos hd] at hc
      have hrec : c ∈ collapseWsAux true cs ∨ c = ' ' := by
        cases b with
        | true => rw [if_pos rfl] at hc; exact Or.inl hc
        | false =>
          rw [if_neg (by simp)] at hc
          rcases List.mem_cons.mp hc with rfl | h'
          · exact Or.inr rfl
          · exact Or.inl h'
      rcases hrec with h' | rfl
      · rcases collapseWsAux_chars cs true c h' with h2 | ⟨h2, h3⟩
        · exact Or.inl h2
        · exact Or.inr ⟨List.mem_cons_of_mem _ h2, h3⟩
      · exact Or.inl rfl
    · rw [if_neg hd] at hc
      rcases List.mem_cons.mp hc with rfl | h'
      · exact Or.inr ⟨List.mem_cons_self _ _, by simpa using hd⟩
      · rcases collapseWsAux_chars cs false c h' with h2 | ⟨h2, h3⟩
        · exact Or.inl h2
        · exact Or.inr ⟨List.mem_cons_of_mem _ h2, h3⟩

/-- The collapsed output has no adjacent whitespace pair. -/
theorem collapseWsAux_chain' :
    ∀ (l : List Char) (b : Bool),
      List.Chain' (fun a b => ¬(pySpace a = true ∧ pySpace b = true)) (collapseWsAux b l)
  | [], _ => by simp [collapseWsAux]
  | c :: cs, b => by
    simp only [collapseWsAux]
    by_cases hc : pySpace c = true
    · rw [if_pos hc]
      cases b with
      | true => rw [if_pos rfl]; exact collapseWsAux_chain' cs true
      | false =>
        rw [if_neg (by simp)]
        rw [List.chain'_cons']
        refine ⟨?_, collapseWsAux_chain' cs true⟩
        intro y hy
        rintro ⟨-, hb⟩
        rw [collapseWsAux_true_head cs y hy] at hb
        exact Bool.false_ne_true hb
    · rw [if_neg hc]
      rw [List.chain'_cons']
      refine ⟨?_, collapseWsAux_chain' cs false⟩
      intro y _
      rintro ⟨ha, -⟩
      exact hc ha

/-- Collapsing is the identity on lists with only plain, non-adjacent
spaces. -/
theorem collapseWsAux_id :
    ∀ (l : List Char), (∀ c ∈ l, pySpace c = true → c = ' ') →
      List.Chain' (fun a b => ¬(pySpace a = true ∧ pySpace b = true)) l →
      collapseWsAux false l = l
  | [], _, _ => rfl
  | c :: cs, hp, hch => by
    simp only [collapseWsAux]
    by_cases hc : pySpace c = true
    · rw [if_pos hc, if_neg (by simp)]
      have hceq : c = ' ' := hp c (List.mem_cons_self _ _) hc
      have hhead : ∀ d, cs.head? = some d → pySpace d = false := by
        intro d hd
        have := (List.chain'_cons'.mp hch).1 d hd
        by_cases hds : pySpace d = true
        · exact absurd ⟨hc, hds⟩ this
        · simpa using hds
      rw [collapseWsAux_true_eq_false cs hhead]
      rw [collapseWsAux_id cs (fun x hx => hp x (List.mem_cons_of_mem _ hx))
        (List.chain'_cons'.mp hch).2]
      rw [hceq]
    · rw [if_neg hc]
      rw [collapseWsAux_id cs (fun x hx => hp x (List.mem_cons_of_mem _ hx))
        (List.chain'_cons'.mp hch).2]

/-- The head of a `dropWhile` never satisfies the predicate. -/
theorem dropWhile_head_not {p : Char → Bool} :
    ∀ (l : List Char) (d : Char), (l.dropWhile p).head? = some d → p d = false
  | [], _, h => by simp at h
  | c :: cs, d, h => by
    rw [List.dropWhile_cons] at h
    by_cases hc : p c = true
    · rw [if_pos hc] at h
      exact dropWhile_head_not cs d h
    · rw [if_neg hc] at h
      have : d = c := by simpa using h.symm
      subst this
      simpa using hc

/-- `dropWhile` is the identity when the head does not satisfy the
predicate. -/
theorem dropWhile_id {p : Char → Bool} :
    ∀ (l : List Char), (∀ d, l.head? = some d → p d = false) → l.dropWhile p = l
  | [], _ => rfl
  | c :: cs, h => by
    rw [List.dropWhile_cons, if_neg (by rw [h c rfl]; exact Bool.false_ne_true)]

/-- Stripping keeps only input characters. -/
theorem pyStrip_subset (l : List Char) (c : Char) (hc : c ∈ pyStrip l) : c ∈ l := by
  unfold pyStrip at hc
  rw [List.mem_reverse] at hc
  have h1 := (List.dropWhile_sublist pySpace).subset hc
  rw [List.mem_reverse] at h1
  exact (List.dropWhile_sublist pySpace).subset h1

/-- Stripping preserves the no-adjacent-whitespace property. -/
theorem pyStrip_chain' (l : List Char)
    (h : List.Chain' (fun a b => ¬(pySpace a = true ∧ pySpace b = true)) l) :
    List.Chain' (fun a b => ¬(pySpace a = true ∧ pySpace b = true)) (pyStrip l) := by
  unfold pyStrip
  have h1 := h.suffix (List.dropWhile_suffix pySpace)
  have h2 : List.Chain' (fun a b => ¬(pySpace a = true ∧ pySpace b = true))
      (l.dropWhile pySpace).reverse := by
    rw [List.chain'_reverse]
    exact h1.imp (fun _ _ hab => by rintro ⟨hb, ha⟩; exact hab ⟨ha, hb⟩)
  have h3 := h2.suffix (List.dropWhile_suffix pySpace)
  rw [List.chain'_reverse]
  exact h3.imp (fun _ _ hab => by rintro ⟨hb, ha⟩; exact hab ⟨ha, hb⟩)

/-- The stripped list starts with a non-whitespace character. -/
theorem pyStrip_head (l : List Char) (d : Char) (h : (pyStrip l).head? = some d) :
    pySpace d = false := by
  unfold pyStrip at h
  rw [List.head?_reverse] at h
  obtain ⟨pre, hpre⟩ :=
    @List.dropWhile_suffix Char ((l.dropWhile pySpace).reverse) pySpace
  have hw : ((l.dropWhile pySpace).reverse).getLast? = some d := by
    rw [← hpre, List.getLast?_append, h]
    rfl
  rw [List.getLast?_reverse] at hw
  exact dropWhile_head_not l d hw

/-- The stripped list ends with a non-whitespace character. -/
theorem pyStrip_getLast (l : List Char) (d : Char) (h : (pyStrip l).getLast? = some d) :
    pySpace d = false := by
  unfold pyStrip at h
  rw [List.getLast?_reverse] at h
  exact dropWhile_head_not _ d h

/-- Stripping is the identity when head and last are non-whitespace. -/
theorem pyStrip_id (l : List Char)
    (hh : ∀ d, l.head? = some d → pySpace d = false)
    (hl : ∀ d, l.getLast? = some d → pySpace d = false) : pyStrip l = l := by
  unfold pyStrip
  rw [dropWhile_id l hh]
  rw [dropWhile_id l.reverse (by
    intro d hd
    rw [List.head?_reverse] at hd
    exact hl d hd)]
  exact List.reverse_reverse l

/-- Character facts about `dd_normalize_text` output. -/
theorem dd_normalize_text_chars (l : List Char) (c : Char) (hc : c ∈ dd_normalize_text l) :
    pyLowerChar c = c ∧ (pyWordChar c || pySpace c) = true ∧
      (pySpace c = true → c = ' ') ∧ c ≠ 'æ' ∧ c ≠ 'œ' ∧ c ≠ 'Æ' ∧ c ≠ 'Œ' := by
  unfold dd_normalize_text at hc
  have hc2 := pyStrip_subset _ c hc
  rcases collapseWsAux_chars _ false c (by simpa [collapseWs] using hc2) with rfl | ⟨hin, hnsp⟩
  · exact ⟨by decide, by decide, fun _ => rfl, by decide, by decide, by decide, by decide⟩
  · rcases pySubPunct_chars _ c hin with ⟨hin2, hword⟩ | he
    · have hlig : ∀ x ∈ l.map pyLowerChar, x ≠ 'Æ' ∧ x ≠ 'Œ' := by
        intro x hx
        obtain ⟨d, -, rfl⟩ := List.mem_map.mp hx
        exact pyLowerChar_ne_ligature d
      rcases ddUnidecode_chars _ hlig c hin2 with ⟨h1, h2, h3, h4, h5⟩ | h1
      · obtain ⟨d, -, rfl⟩ := List.mem_map.mp h1
        exact ⟨pyLowerChar_idem d, hword,
          fun hs => absurd hs (by rw [hnsp]; exact Bool.false_ne_true), h2, h3, h4, h5⟩
      · rcases h1 with rfl | rfl | rfl <;> decide
    · subst he
      exact absurd hnsp (by decide)

/-- C10 helper: `dd_normalize_text` is idempotent. -/
theorem dd_normalize_text_idem (l : List Char) :
    dd_normalize_text (dd_normalize_text l) = dd_normalize_text l := by
  have hfix : (dd_normalize_text l).map pyLowerChar = dd_normalize_text l :=
    listMapId _ (fun c hc => (dd_normalize_text_chars l c hc).1)
  have huni : ddUnidecode (dd_normalize_text l) = dd_normalize_text l :=
    ddUnidecode_id _ (fun c hc =>
      ⟨(dd_normalize_text_chars l c hc).2.2.2.1,
       (dd_normalize_text_chars l c hc).2.2.2.2.1,
       (dd_normalize_text_chars l c hc).2.2.2.2.2.1,
       (dd_normalize_text_chars l c hc).2.2.2.2.2.2⟩)
  have hword : pySubPunct (dd_normalize_text l) = dd_normalize_text l :=
    pySubPunct_id _ (fun c hc => (dd_normalize_text_chars l c hc).2.1)
  have hchain : List.Chain' (fun a b => ¬(pySpace a = true ∧ pySpace b = true))
      (dd_normalize_text l) := by
    show List.Chain' _ (pyStrip (collapseWs (pySubPunct (ddUnidecode (l.map pyLowerChar)))))
    exact pyStrip_chain' _ (collapseWsAux_chain' _ false)
  have hcol : collapseWs (dd_normalize_text l) = dd_normalize_text l :=
    collapseWsAux_id _ (fun c hc => (dd_normalize_text_chars l c hc).2.2.1) hchain
  have hh : ∀ d, (dd_normalize_text l).head? = some d → pySpace d = false := by
    intro d hd
    exact pyStrip_head _ d hd
  have hl : ∀ d, (dd_normalize_text l).getLast? = some d → pySpace d = false := by
    intro d hd
    exact pyStrip_getLast _ d hd
  have hstr : pyStrip (dd_normalize_text l) = dd_normalize_text l := pyStrip_id _ hh hl
  show pyStrip (collapseWs (pySubPunct (ddUnidecode
    ((dd_normalize_text l).map pyLowerChar)))) = dd_normalize_text l
  rw [hfix, huni, hword, hcol, hstr]

/-- C10 helper: `normalize_title` output has canonical whitespace. -/
theorem normalize_title_wsOk (l : List Char) : wsOk (normalize_title l) := by
  rw [normalize_title_shape]
  exact ⟨joinWords_head _ (normalize_title_tokens l),
    joinWords_getLast _ (normalize_title_tokens l),
    joinWords_chain' _ (normalize_title_tokens l)⟩

/-- C10 helper: `agent_normalize_text` output has canonical whitespace. -/
theorem agent_normalize_text_wsOk (l : List Char) : wsOk (agent_normalize_text l) := by
  show wsOk (joinWords (pyWords (pySubPunct (replaceLigatures (pyNFKD (l.map pyLowerChar))))))
  exact ⟨joinWords_head _ (agent_tokens l), joinWords_getLast _ (agent_tokens l),
    joinWords_chain' _ (agent_tokens l)⟩

/-- C10 helper: `dd_normalize_text` output has canonical whitespace. -/
theorem dd_normalize_text_wsOk (l : List Char) : wsOk (dd_normalize_text l) := by
  show wsOk (pyStrip (collapseWs (pySubPunct (ddUnidecode (l.map pyLowerChar)))))
  exact ⟨fun d hd => pyStrip_head _ d hd, fun d hd => pyStrip_getLast _ d hd,
    pyStrip_chain' _ (collapseWsAux_chain' _ false)⟩

/-- C10 (amended): each public normalizer (`normalize_title`,
`normalize_text` of the agent matcher, `RecordDeduplicator.normalize_text`)
is idempotent, its output is fully lowercase (fixed by lowercasing), has no
leading, trailing or repeated whitespace, and contains no punctuation other
than the underscore: every character is a word character (`\w`: letter,
digit, or underscore) or a single space.  (The underscore, a punctuation
character, is retained — see the counterexample.) -/
theorem C10_normalizers_idempotent_lowercase_canonical (l : List Char) :
    (normalize_title (normalize_title l) = normalize_title l ∧
      agent_normalize_text (agent_normalize_text l) = agent_normalize_text l ∧
      dd_normalize_text (dd_normalize_text l) = dd_normalize_text l) ∧
    ((normalize_title l).map pyLowerChar = normalize_title l ∧
      (agent_normalize_text l).map pyLowerChar = agent_normalize_text l ∧
      (dd_normalize_text l).map pyLowerChar = dd_normalize_text l) ∧
    ((∀ c ∈ normalize_title l, pyWordChar c = true ∨ c = ' ') ∧
      (∀ c ∈ agent_normalize_text l, pyWordChar c = true ∨ c = ' ') ∧
      (∀ c ∈ dd_normalize_text l, pyWordChar c = true ∨ c = ' ')) ∧
    wsOk (normalize_title l) ∧ wsOk (agent_normalize_text l) ∧
      wsOk (dd_normalize_text l) := by
  have wordOrSpace : ∀ (c : Char), (pyWordChar c || pySpace c) = true →
      (pySpace c = true → c = ' ') → pyWordChar c = true ∨ c = ' ' := by
    intro c h1 h2
    rcases Bool.or_eq_true .. ▸ h1 with h | h
    · exact Or.inl h
    · exact Or.inr (h2 h)
  refine ⟨⟨normalize_title_idem l, agent_normalize_text_idem l, dd_normalize_text_idem l⟩,
    ⟨listMapId _ (fun c hc => (normalize_title_chars l c hc).1),
     listMapId _ (fun c hc => (agent_normalize_text_chars l c hc).1),
     listMapId _ (fun c hc => (dd_normalize_text_chars l c hc).1)⟩,
    ⟨fun c hc => wordOrSpace c (normalize_title_chars l c hc).2.1
        (normalize_title_chars l c hc).2.2.1,
     fun c hc => wordOrSpace c (agent_normalize_text_chars l c hc).2.1
        (agent_normalize_text_chars l c hc).2.2.1,
     fun c hc => wordOrSpace c (dd_normalize_text_chars l c hc).2.1
        (dd_normalize_text_chars l c hc).2.2.1⟩,
    normalize_title_wsOk l, agent_normalize_text_wsOk l, dd_normalize_text_wsOk l⟩

end LatinPub
